import Mathlib

/-!
Verification development for the Competitor-Agent ingestion pipeline.

The Python sources are shallowly embedded: pure functions become Lean
functions over `List Char` / `String` / `Nat`, CSV ledgers become lists of
records, and every fallible oracle call (OpenAI chat completion) becomes an
explicit `Except Unit String` parameter (`.error ()` models a raised
exception or a `None` message body, `.ok s` models a returned text).
Machine words in SHA-256 are `Nat` reduced mod `2 ^ 32` explicitly.
-/

namespace PyStr

/-- Model of Python `str.lower` for a single character, restricted to ASCII
(the code only ever lowercases schemes, hosts and ASCII keywords): an
uppercase ASCII letter moves down by 32 code points. -/
def lowerChar (c : Char) : Char :=
  if 65 ≤ c.toNat ∧ c.toNat ≤ 90 then Char.ofNat (c.toNat + 32) else c

/-- Model of Python `str.upper` for a single character (ASCII). -/
def upperChar (c : Char) : Char :=
  if 97 ≤ c.toNat ∧ c.toNat ≤ 122 then Char.ofNat (c.toNat - 32) else c

def lowerL (l : List Char) : List Char := l.map lowerChar

def upperL (l : List Char) : List Char := l.map upperChar

/-- ASCII lowercase letter test. -/
def isLowerAlpha (c : Char) : Bool := 97 ≤ c.toNat && c.toNat ≤ 122

/-- ASCII uppercase letter test. -/
def isUpperAlpha (c : Char) : Bool := 65 ≤ c.toNat && c.toNat ≤ 90

/-- ASCII letter test (Python `str.isalpha` restricted to ASCII, as used by
`urlsplit` on the scheme's first character). -/
def isAsciiAlpha (c : Char) : Bool := isLowerAlpha c || isUpperAlpha c

def isAsciiDigit (c : Char) : Bool := 48 ≤ c.toNat && c.toNat ≤ 57

/-- Python whitespace for `str.strip`. -/
def isPySpace (c : Char) : Bool :=
  c = ' ' || c = '\t' || c = '\n' || c = '\x0d' || c = '\x0b' || c = '\x0c'

/-- Model of Python `str.strip()` (no argument: strips whitespace). -/
def stripL (l : List Char) : List Char :=
  (l.dropWhile isPySpace).reverse.dropWhile isPySpace |>.reverse

def strip (s : String) : String := ⟨stripL s.data⟩

def lower (s : String) : String := ⟨lowerL s.data⟩

def upper (s : String) : String := ⟨upperL s.data⟩

/-- Does `hay` start with `needle`? (helper for the substring test). -/
def startsWithL : List Char → List Char → Bool
  | _, [] => true
  | [], _ :: _ => false
  | h :: hs, n :: ns => h = n && startsWithL hs ns

/-- Model of the Python substring test `needle in hay`. -/
def containsSubL : List Char → List Char → Bool
  | hay, needle =>
    match hay with
    | [] => needle.isEmpty
    | _ :: rest => startsWithL hay needle || containsSubL rest needle

/-- String-level substring test, `needle ∈ hay` in Python. -/
def containsSub (hay needle : String) : Bool := containsSubL hay.data needle.data

/-- Model of Python `str.title` (ASCII): the first cased character of every
run of letters is uppercased, the rest lowercased. -/
def titleGo : Bool → List Char → List Char
  | _, [] => []
  | prevCased, c :: rest =>
    if isAsciiAlpha c then
      (if prevCased then lowerChar c else upperChar c) :: titleGo true rest
    else
      c :: titleGo false rest

def titleL (l : List Char) : List Char := titleGo false l

def title (s : String) : String := ⟨titleL s.data⟩

/-- Model of Python `str.split()` (no argument: split on whitespace runs,
discarding empties). -/
def splitWsGo : List Char → List Char → List (List Char)
  | acc, [] => if acc.isEmpty then [] else [acc.reverse]
  | acc, c :: rest =>
    if isPySpace c then
      if acc.isEmpty then splitWsGo [] rest else acc.reverse :: splitWsGo [] rest
    else
      splitWsGo (c :: acc) rest

def splitWs (l : List Char) : List (List Char) := splitWsGo [] l

/-- Model of Python `str.replace` for one-character patterns. -/
def replaceChar (a b : Char) (l : List Char) : List Char :=
  l.map (fun c => if c = a then b else c)

end PyStr

namespace SHA256

/-- 32-bit word modulus. -/
def M32 : Nat := 4294967296

def rotr (n x : Nat) : Nat := ((x >>> n) ||| (x <<< (32 - n))) % M32

def shr (n x : Nat) : Nat := x >>> n

def add32 (a b : Nat) : Nat := (a + b) % M32

def bigSigma0 (x : Nat) : Nat := (rotr 2 x) ^^^ (rotr 13 x) ^^^ (rotr 22 x)

def bigSigma1 (x : Nat) : Nat := (rotr 6 x) ^^^ (rotr 11 x) ^^^ (rotr 25 x)

def smallSigma0 (x : Nat) : Nat := (rotr 7 x) ^^^ (rotr 18 x) ^^^ (shr 3 x)

def smallSigma1 (x : Nat) : Nat := (rotr 17 x) ^^^ (rotr 19 x) ^^^ (shr 10 x)

def chf (x y z : Nat) : Nat := (x &&& y) ^^^ ((M32 - 1 - x) &&& z)

def maj (x y z : Nat) : Nat := (x &&& y) ^^^ (x &&& z) ^^^ (y &&& z)

/-- The 64 round constants of FIPS 180-4 (decimal). -/
def K : List Nat :=
  [1116352408, 1899447441, 3049323471, 3921009573, 961987163, 1508970993,
   2453635748, 2870763221, 3624381080, 310598401, 607225278, 1426881987,
   1925078388, 2162078206, 2614888103, 3248222580, 3835390401, 4022224774,
   264347078, 604807628, 770255983, 1249150122, 1555081692, 1996064986,
   2554220882, 2821834349, 2952996808, 3210313671, 3336571891, 3584528711,
   113926993, 338241895, 666307205, 773529912, 1294757372, 1396182291,
   1695183700, 1986661051, 2177026350, 2456956037, 2730485921, 2820302411,
   3259730800, 3345764771, 3516065817, 3600352804, 4094571909, 275423344,
   430227734, 506948616, 659060556, 883997877, 958139571, 1322822218,
   1537002063, 1747873779, 1955562222, 2024104815, 2227730452, 2361852424,
   2428436474, 2756734187, 3204031479, 3329325298]

def H0 : List Nat :=
  [0x6a09e667, 0xbb67ae85, 0x3c6ef372, 0xa54ff53a,
   0x510e527f, 0x9b05688c, 0x1f83d9ab, 0x5be0cd19]

/-- Big-endian byte serialization on `k` bytes. -/
def toBytesBE (k n : Nat) : List Nat :=
  (List.range k).map (fun i => (n >>> (8 * (k - 1 - i))) % 256)

/-- SHA-256 message padding: `0x80`, zeros to 56 mod 64, 8-byte bit length. -/
def pad (msg : List Nat) : List Nat :=
  let l := msg.length
  let z := (119 - (l % 64)) % 64
  msg ++ [0x80] ++ List.replicate z 0 ++ toBytesBE 8 (8 * l)

/-- Read one big-endian 32-bit word from the first four bytes. -/
def word4 (bytes : List Nat) : Nat :=
  (bytes.take 4).foldl (fun a b => a * 256 + b) 0

/-- The 16 initial schedule words of a 64-byte chunk. -/
def chunkWords (chunk : List Nat) : List Nat :=
  (List.range 16).map (fun i => word4 (chunk.drop (4 * i)))

/-- Extend the message schedule from 16 to 64 words. -/
def extendWords : Nat → List Nat → List Nat
  | 0, w => w
  | n + 1, w =>
    let t := w.length
    let nw := (add32 (add32 (w.getD (t - 16) 0) (smallSigma0 (w.getD (t - 15) 0)))
                     (add32 (w.getD (t - 7) 0) (smallSigma1 (w.getD (t - 2) 0))))
    extendWords n (w ++ [nw])

/-- One round of the compression loop over state `(a,b,c,d,e,f,g,h)`. -/
def round (w : List Nat) (st : Nat × Nat × Nat × Nat × Nat × Nat × Nat × Nat) (t : Nat) :
    Nat × Nat × Nat × Nat × Nat × Nat × Nat × Nat :=
  match st with
  | (a, b, c, d, e, f, g, h) =>
    let t1 := add32 (add32 (add32 h (bigSigma1 e)) (add32 (chf e f g) (K.getD t 0)))
                    (w.getD t 0)
    let t2 := add32 (bigSigma0 a) (maj a b c)
    (add32 t1 t2, a, b, c, add32 d t1, e, f, g)

/-- Compress one 64-byte chunk into the running hash state (8 words). -/
def compress (state : List Nat) (chunk : List Nat) : List Nat :=
  let w := extendWords 48 (chunkWords chunk)
  match (List.range 64).foldl (round w)
      (state.getD 0 0, state.getD 1 0, state.getD 2 0, state.getD 3 0,
       state.getD 4 0, state.getD 5 0, state.getD 6 0, state.getD 7 0) with
  | (a, b, c, d, e, f, g, h) =>
    [add32 (state.getD 0 0) a, add32 (state.getD 1 0) b,
     add32 (state.getD 2 0) c, add32 (state.getD 3 0) d,
     add32 (state.getD 4 0) e, add32 (state.getD 5 0) f,
     add32 (state.getD 6 0) g, add32 (state.getD 7 0) h]

/-- Split the padded message into 64-byte chunks; the fuel argument (any
bound on the number of chunks, e.g. the byte count) makes the recursion
structural. -/
def chunksGo : Nat → List Nat → List (List Nat)
  | 0, _ => []
  | _ + 1, [] => []
  | n + 1, bytes => bytes.take 64 :: chunksGo n (bytes.drop 64)

/-- The eight final hash words of a byte message: fold every 64-byte chunk
of the padded message through `compress`, starting from `H0`. -/
def sha256Words (msg : List Nat) : List Nat :=
  ((chunksGo (pad msg).length (pad msg)).foldl compress H0)

def hexDigit (n : Nat) : Char :=
  match n with
  | 0 => '0' | 1 => '1' | 2 => '2' | 3 => '3' | 4 => '4'
  | 5 => '5' | 6 => '6' | 7 => '7' | 8 => '8' | 9 => '9'
  | 10 => 'a' | 11 => 'b' | 12 => 'c' | 13 => 'd' | 14 => 'e'
  | _ => 'f'

/-- Eight lowercase hex characters of one 32-bit word. -/
def wordHex (w : Nat) : List Char :=
  (List.range 8).map (fun i => hexDigit ((w >>> (4 * (7 - i))) % 16))

/-- Model of `hashlib.sha256(bytes).hexdigest()` as a list of characters. -/
def hexdigestL (msg : List Nat) : List Char :=
  ((sha256Words msg).map wordHex).flatten

/-- UTF-8 encoding of one character (model of `str.encode("utf-8")`). -/
def utf8Char (c : Char) : List Nat :=
  let n := c.toNat
  if n < 128 then [n]
  else if n < 2048 then [192 + n / 64, 128 + n % 64]
  else if n < 65536 then [224 + n / 4096, 128 + (n / 64) % 64, 128 + n % 64]
  else [240 + n / 262144, 128 + (n / 4096) % 64, 128 + (n / 64) % 64, 128 + n % 64]

def utf8 (l : List Char) : List Nat := (l.map utf8Char).flatten

/-- Model of `hashlib.sha256(s.encode("utf-8")).hexdigest()`. -/
def hexdigest (s : String) : String := ⟨hexdigestL (utf8 s.data)⟩

theorem compress_length (state chunk : List Nat) : (compress state chunk).length = 8 := by
  simp [compress]

theorem foldl_compress_length :
    ∀ (chunks : List (List Nat)) (state : List Nat), state.length = 8 →
      (chunks.foldl compress state).length = 8
  | [], _, hs => hs
  | c :: t, state, _ =>
    foldl_compress_length t (compress state c) (compress_length state c)

theorem sha256Words_length (msg : List Nat) : (sha256Words msg).length = 8 :=
  foldl_compress_length _ _ rfl

theorem wordHex_length (w : Nat) : (wordHex w).length = 8 := by
  simp [wordHex]

/-- A SHA-256 hex digest always has exactly 64 characters. -/
theorem hexdigestL_length (msg : List Nat) : (hexdigestL msg).length = 64 := by
  unfold hexdigestL
  rw [List.length_flatten]
  have h8 := sha256Words_length msg
  generalize hws : sha256Words msg = ws at h8
  rcases ws with _ | ⟨a, _ | ⟨b, _ | ⟨c, _ | ⟨d, _ | ⟨e, _ | ⟨f, _ | ⟨g, _ | ⟨h, _ | ⟨i, t⟩⟩⟩⟩⟩⟩⟩⟩⟩ <;>
    simp_all [wordHex_length]

theorem hexdigest_length (s : String) : (hexdigest s).length = 64 := by
  show (hexdigestL (utf8 s.data)).length = 64
  exact hexdigestL_length _

end SHA256

namespace UrlNorm

/-!
Model of `urllib.parse.urlsplit` / `urlunsplit` (CPython 3.11) as used by
`normalize_url` in `jobs/daily_scan.py`.  Two documented simplifications:
`_checknetloc` is a no-op for ASCII netlocs and is modeled as a no-op, and
the bracketed-host content validation added in CPython 3.11.4
(`_check_bracketed_host`) is not modeled (pre-3.11 semantics): a netloc
containing `[` without `]` or vice versa is a `ValueError`, modeled as
`none`; a balanced bracketed host is accepted.  Lower-casing is the ASCII
model `PyStr.lowerL`.
-/

/-- Characters CPython allows in a scheme after the first (`scheme_chars`). -/
def schemeChar (c : Char) : Bool :=
  PyStr.isAsciiAlpha c || PyStr.isAsciiDigit c || c = '+' || c = '-' || c = '.'

/-- The bytes CPython removes from a URL before parsing (tab, CR, LF). -/
def isUnsafeUrlChar (c : Char) : Bool := c = '\t' || c = '\x0d' || c = '\n'

/-- WHATWG C0-control-or-space class, lstripped from the URL's front. -/
def isC0OrSpace (c : Char) : Bool := c.toNat ≤ 32

/-- The pre-parsing cleanup `urlsplit` performs on its input. -/
def cleanse (l : List Char) : List Char :=
  (l.dropWhile isC0OrSpace).filter (fun c => !isUnsafeUrlChar c)

structure SplitResult where
  scheme : List Char
  netloc : List Char
  path : List Char
  query : List Char
  fragment : List Char
deriving DecidableEq

/-- The scheme-recognition step of `urlsplit`: the text before the first
colon is a scheme when the colon is not first, the first character is an
ASCII letter, and every character is a scheme character; the scheme is
lower-cased.  Otherwise the scheme is empty and the URL unconsumed. -/
def parseScheme (l : List Char) : List Char × List Char :=
  let pre := l.takeWhile (fun c => c ≠ ':')
  if pre.length < l.length && !pre.isEmpty &&
      PyStr.isAsciiAlpha (pre.headD ' ') && pre.all schemeChar then
    (PyStr.lowerL pre, l.drop (pre.length + 1))
  else
    ([], l)

def netDelim (c : Char) : Bool := c = '/' || c = '?' || c = '#'

/-- `_splitnetloc`: the netloc runs to the first of `/`, `?`, `#`. -/
def splitnetloc (l : List Char) : List Char × List Char :=
  (l.takeWhile (fun c => !netDelim c), l.dropWhile (fun c => !netDelim c))

/-- The scheme `urlsplit` extracts (after cleanup). -/
def schemeOf (u : List Char) : List Char := (parseScheme (cleanse u)).1

/-- The URL remainder after scheme extraction. -/
def restAfterScheme (u : List Char) : List Char := (parseScheme (cleanse u)).2

/-- Did the remainder start with `//` (netloc present)? -/
def hasNetlocMarker (u : List Char) : Bool :=
  (restAfterScheme u).take 2 = ['/', '/']

/-- The netloc `urlsplit` extracts. -/
def netlocOf (u : List Char) : List Char :=
  if hasNetlocMarker u then (splitnetloc ((restAfterScheme u).drop 2)).1
  else []

/-- The remainder after the netloc. -/
def restAfterNetloc (u : List Char) : List Char :=
  if hasNetlocMarker u then (splitnetloc ((restAfterScheme u).drop 2)).2
  else restAfterScheme u

/-- The `Invalid IPv6 URL` condition: one bracket without the other. -/
def bracketBad (u : List Char) : Bool :=
  ((netlocOf u).contains '[' && !(netlocOf u).contains ']') ||
    ((netlocOf u).contains ']' && !(netlocOf u).contains '[')

/-- The remainder after stripping the fragment. -/
def restAfterFragment (u : List Char) : List Char :=
  if (restAfterNetloc u).contains '#' then
    (restAfterNetloc u).takeWhile (fun c => c ≠ '#')
  else restAfterNetloc u

def fragmentOf (u : List Char) : List Char :=
  if (restAfterNetloc u).contains '#' then
    ((restAfterNetloc u).dropWhile (fun c => c ≠ '#')).drop 1
  else []

/-- The path: the remainder after stripping the query. -/
def pathOf (u : List Char) : List Char :=
  if (restAfterFragment u).contains '?' then
    (restAfterFragment u).takeWhile (fun c => c ≠ '?')
  else restAfterFragment u

def queryOf (u : List Char) : List Char :=
  if (restAfterFragment u).contains '?' then
    ((restAfterFragment u).dropWhile (fun c => c ≠ '?')).drop 1
  else []

/-- `urllib.parse.urlsplit` (with `allow_fragments=True`); `none` models the
`ValueError` raised on an unbalanced-bracket netloc. -/
def urlsplitM (url0 : List Char) : Option SplitResult :=
  if bracketBad url0 then none
  else
    some ⟨schemeOf url0, netlocOf url0, pathOf url0, queryOf url0,
          fragmentOf url0⟩

/-- CPython's `uses_netloc` scheme list. -/
def usesNetloc : List (List Char) :=
  ["", "ftp", "http", "gopher", "nntp", "telnet", "imap", "wais", "file",
   "mms", "https", "shttp", "snews", "prospero", "rtsp", "rtsps", "rtspu",
   "rsync", "svn", "svn+ssh", "sftp", "nfs", "git", "git+ssh", "ws",
   "wss"].map String.data

/-- `if url and url[:1] != '/': url = '/' + url` in `urlunsplit`. -/
def slashify (p : List Char) : List Char :=
  if !p.isEmpty && p.headD ' ' ≠ '/' then '/' :: p else p

/-- `urllib.parse.urlunsplit` (CPython 3.11). -/
def urlunsplit (r : SplitResult) : List Char :=
  let url0 :=
    if !r.netloc.isEmpty ||
        (!r.scheme.isEmpty && usesNetloc.contains r.scheme && r.path.take 2 ≠ ['/', '/']) then
      '/' :: '/' :: (r.netloc ++ slashify r.path)
    else r.path
  let url1 := if !r.scheme.isEmpty then r.scheme ++ ':' :: url0 else url0
  let url2 := if !r.query.isEmpty then url1 ++ '?' :: r.query else url1
  if !r.fragment.isEmpty then url2 ++ '#' :: r.fragment else url2

/-- `jobs/daily_scan.py` `normalize_url` on character lists: lower-case
scheme (default `https`) and host, keep the path (defaulted to `/`,
one trailing slash stripped unless the path is exactly `/`), drop query
and fragment. -/
def normScheme (parts : SplitResult) : List Char :=
  PyStr.lowerL (if parts.scheme.isEmpty then ['h', 't', 't', 'p', 's']
                else parts.scheme)

def normPath (parts : SplitResult) : List Char :=
  let path0 := if parts.path.isEmpty then ['/'] else parts.path
  if path0.getLast? = some '/' && path0 ≠ ['/'] then path0.dropLast else path0

/-- The string `normalize_url` rebuilds from the split components. -/
def normCombine (parts : SplitResult) : List Char :=
  urlunsplit ⟨normScheme parts, PyStr.lowerL parts.netloc, normPath parts,
              [], []⟩

def normalize_urlL (u : List Char) : Option (List Char) :=
  match urlsplitM u with
  | none => none
  | some parts => some (normCombine parts)

/-- `jobs/daily_scan.py` `normalize_url`. -/
def normalize_url (s : String) : Option String :=
  (normalize_urlL s.data).map (fun l => ⟨l⟩)

/-- `jobs/daily_scan.py` `make_id`: the SHA-256 hex digest of
`company||normalized-url` (UTF-8).  `none` models the `ValueError` that
`normalize_url` propagates. -/
def make_id (company url : String) : Option String :=
  (normalize_url url).map (fun n => SHA256.hexdigest (company ++ "||" ++ n))

/-- The hash pre-image `make_id` feeds to SHA-256. -/
def idPreimage (company normalized : String) : String :=
  company ++ "||" ++ normalized

/-- `make_id` as it appears in `jobs/process_emails.py` and
`app/webhook_server.py`: digest of `company||email||message_id`. -/
def email_make_id (company message_id : String) : String :=
  SHA256.hexdigest (company ++ "||email||" ++ message_id)

/-- Inputs on which one pass of `normalize_url` is already a fixed point:
the rebuilt path carries no further strippable trailing slash, and the
empty-netloc `//`-path collapse of `urlunsplit` cannot fire on the next
pass. -/
def normalizeStable (u : List Char) : Bool :=
  match urlsplitM u with
  | none => true
  | some parts =>
      (!(decide ((normPath parts).getLast? = some '/') &&
         decide (normPath parts ≠ ['/']))) &&
      (!((PyStr.lowerL parts.netloc).isEmpty &&
         decide ((normPath parts).take 2 = ['/', '/'])))

/-- Whether the character list contains the `make_id` separator `||` as a
contiguous substring. -/
def hasSep : List Char → Bool
  | [] => false
  | [_] => false
  | a :: b :: t => (a = '|' && b = '|') || hasSep (b :: t)

end UrlNorm

example : UrlNorm.normalize_url "HTTP://Example.com/Blog/" = some "http://example.com/Blog" := by decide
example : UrlNorm.normalize_url "http://example.com/blog" = some "http://example.com/blog" := by decide
example : UrlNorm.normalize_url "http://h/a//" = some "http://h/a/" := by decide
example : UrlNorm.normalize_url "http://h/a/" = some "http://h/a" := by decide
example : UrlNorm.normalize_url "foo" = some "https:///foo" := by decide
example : UrlNorm.normalize_url "http://example.com" = some "http://example.com/" := by decide
example : UrlNorm.normalize_url "a:////b" = some "a://b" := by decide
example : UrlNorm.normalize_url "http:////x" = some "http://x" := by decide
example : UrlNorm.normalize_url "//host/p" = some "https://host/p" := by decide
example : UrlNorm.normalize_url ":/a" = some "https:///:/a" := by decide
example : UrlNorm.normalize_url "1http://h/a" = some "https:///1http://h/a" := by decide
example : UrlNorm.normalize_url "http://H/P?q=1#frag" = some "http://h/P" := by decide
example : UrlNorm.normalize_url "mailto:someone@x.com" = some "mailto:someone@x.com" := by decide
example : UrlNorm.normalize_url "http://[abc/x" = none := by decide

namespace EmailMatcher

/-!
Model of `app/email_matcher.py`.  The two CSV ledgers become lists of
records; every timestamp the code takes from `datetime.now` is an explicit
`now : String` parameter.  The OpenAI chat call is an
`Except Unit String` parameter: `.ok s` is the returned message content,
`.error ()` is a raised exception or a `None` content (both of which the
code's `except` clause turns into the documented fallback).
-/

/-- One row of `data/emails.csv` (`EMAIL_COLUMNS`).  `injected` keeps the
Python `str(bool)` representation. -/
structure EmailRecord where
  json_file : String
  from_address : String
  to_address : String
  date : String
  subject : String
  matched_company : String
  injected : String
  received_at : String
  processed_at : String
  status : String
deriving DecidableEq

/-- One row of `data/email_senders.csv` (`SENDER_COLUMNS`). -/
structure SenderRecord where
  from_address : String
  emails_received : Nat
  emails_processed : Nat
  emails_injected : Nat
  assigned_company : String
  last_seen : String
deriving DecidableEq

/-- `email_exists`: is there a row with this `json_file`? -/
def email_exists (emails : List EmailRecord) (json_file : String) : Bool :=
  emails.any (fun r => r.json_file = json_file)

/-- `save_email_record`: append one row.  `matched_company` follows
Python truthiness: `None`/empty become `"unmatched"`, and `processed_at`
is set only for a truthy `matched_company`. -/
def save_email_record (emails : List EmailRecord)
    (json_file from_address to_address date subject : String)
    (matched_company : Option String) (injected : Bool) (status : String)
    (now : String) : List EmailRecord :=
  let mc := matched_company.getD ""
  emails ++ [{ json_file := json_file, from_address := from_address,
               to_address := to_address, date := date, subject := subject,
               matched_company := if mc = "" then "unmatched" else mc,
               injected := if injected then "True" else "False",
               received_at := now,
               processed_at := if mc = "" then "" else now,
               status := status }]

/-- Update the first element satisfying `q` (pandas `index[0]`). -/
def updateFirst (q : α → Bool) (f : α → α) : List α → List α
  | [] => []
  | a :: t => if q a then f a :: t else a :: updateFirst q f t

/-- `update_sender_stats`: increment the counters of the sender's row,
creating the row (with empty `assigned_company`) when absent. -/
def update_sender_stats (senders : List SenderRecord) (from_address : String)
    (received processed injected : Nat) (now : String) : List SenderRecord :=
  if senders.any (fun r => r.from_address = from_address) then
    updateFirst (fun r => r.from_address = from_address)
      (fun r => { r with emails_received := r.emails_received + received,
                         emails_processed := r.emails_processed + processed,
                         emails_injected := r.emails_injected + injected,
                         last_seen := now }) senders
  else
    senders ++ [{ from_address := from_address, emails_received := received,
                  emails_processed := processed, emails_injected := injected,
                  assigned_company := "", last_seen := now }]

/-- `get_sender_assigned_company`: the manual override, when the stored
value is truthy, non-blank and not the string `"nan"` (a CSV `NaN`). -/
def get_sender_assigned_company (senders : List SenderRecord)
    (from_address : String) : Option String :=
  match senders.find? (fun r => r.from_address = from_address) with
  | none => none
  | some r =>
    let assigned := r.assigned_company
    if assigned ≠ "" && PyStr.strip assigned ≠ "" && PyStr.lower assigned ≠ "nan" then
      some (PyStr.strip assigned)
    else
      none

/-- `match_email_to_competitor`: manual assignment first; otherwise ask the
oracle, reject the sentinel `NONE`, validate case-insensitively against the
known names, then leniently by substring; any oracle failure is no match. -/
def match_email_to_competitor (senders : List SenderRecord)
    (competitor_names : List String) (oracle : Except Unit String)
    (from_address subject body_preview : String) : Option String :=
  match get_sender_assigned_company senders from_address with
  | some assigned => some assigned
  | none =>
    if competitor_names.isEmpty then none
    else
      match oracle with
      | .error _ => none
      | .ok content =>
        let result := PyStr.strip content
        if PyStr.upper result = "NONE" then none
        else
          match competitor_names.find? (fun n => PyStr.lower n = PyStr.lower result) with
          | some n => some n
          | none =>
            match competitor_names.find? (fun n =>
                PyStr.containsSub (PyStr.lower result) (PyStr.lower n) ||
                PyStr.containsSub (PyStr.lower n) (PyStr.lower result)) with
            | some n => some n
            | none => none

/-- `check_email_quality`: accept iff `"ACCEPT"` occurs in the upper-cased
stripped oracle answer; an oracle failure accepts (fail open). -/
def check_email_quality (oracle : Except Unit String)
    (_from_address _subject _body_preview : String) : Bool :=
  match oracle with
  | .error _ => true
  | .ok content => PyStr.containsSub (PyStr.upper (PyStr.strip content)) "ACCEPT"

/-- `record_email_received`: no-op when the `json_file` is already present;
otherwise append the RECEIVED row and bump the sender's received count. -/
def record_email_received (emails : List EmailRecord) (senders : List SenderRecord)
    (json_file from_address to_address date subject now : String) :
    List EmailRecord × List SenderRecord :=
  if email_exists emails json_file then
    (emails, senders)
  else
    (save_email_record emails json_file from_address to_address date subject
       none false "inbox" now,
     update_sender_stats senders from_address 1 0 0 now)

/-- `record_email_matched`: set `matched_company`/`processed_at` on every
row with this `json_file` (a pandas mask update), and bump the sender's
processed count (even when no email row matched, as the code does). -/
def record_email_matched (emails : List EmailRecord) (senders : List SenderRecord)
    (json_file from_address matched_company now : String) :
    List EmailRecord × List SenderRecord :=
  (emails.map (fun r =>
     if r.json_file = json_file then
       { r with matched_company := matched_company, processed_at := now }
     else r),
   update_sender_stats senders from_address 0 1 0 now)

/-- `update_email_injected`: mark every row with this `json_file`. -/
def update_email_injected (emails : List EmailRecord) (json_file : String)
    (injected : Bool) : List EmailRecord :=
  emails.map (fun r =>
    if r.json_file = json_file then
      { r with injected := if injected then "True" else "False" }
    else r)

/-- `record_email_injected`. -/
def record_email_injected (emails : List EmailRecord) (senders : List SenderRecord)
    (json_file from_address now : String) :
    List EmailRecord × List SenderRecord :=
  (update_email_injected emails json_file true,
   update_sender_stats senders from_address 0 0 1 now)

end EmailMatcher

namespace Webhook

/-- One row of `data/updates.csv` (`COLUMNS` in `app/webhook_server.py`). -/
structure UpdateRow where
  id : String
  company : String
  source_url : String
  title : String
  published_at : String
  collected_at : String
  clean_text : String
deriving DecidableEq

/-- The three ledgers a webhook delivery can touch. -/
structure PipeState where
  emails : List EmailMatcher.EmailRecord
  senders : List EmailMatcher.SenderRecord
  updates : List UpdateRow
deriving DecidableEq

/-- `process_email_immediately` from `app/webhook_server.py`.

The payload-field extraction (header fallback chains, date parsing, body
extraction) is modeled upstream: the already-extracted strings are
parameters (`filename` is `filepath.name`, `filestem` is `filepath.stem`,
`published_at` is the parsed date or `""`).  `competitor_names` models
`get_competitor_names()`, `match_oracle`/`quality_oracle` the two OpenAI
calls, `now` every `datetime.now` timestamp.  Stage order is the code's:
load existing ids, record RECEIVED, AI match (reading the senders ledger
as updated by the RECEIVED stage), record MATCHED, quality gate,
duplicate-id check against the ids loaded at entry, append the update row
and record INJECTED. -/
def process_email_immediately (competitor_names : List String)
    (match_oracle quality_oracle : Except Unit String) (now : String)
    (filename filestem from_addr to_addr date_str subject message_id
     published_at body : String) (st : PipeState) :
    PipeState × Option UpdateRow :=
  let existing_ids := st.updates.map (fun r => r.id)
  let st1 :=
    EmailMatcher.record_email_received st.emails st.senders filename from_addr
      to_addr date_str subject now
  match EmailMatcher.match_email_to_competitor st1.2 competitor_names
      match_oracle from_addr subject body with
  | none => (⟨st1.1, st1.2, st.updates⟩, none)
  | some company =>
    let st2 :=
      EmailMatcher.record_email_matched st1.1 st1.2 filename from_addr
        company now
    if !EmailMatcher.check_email_quality quality_oracle from_addr subject body then
      (⟨st2.1, st2.2, st.updates⟩, none)
    else
      let row_id := UrlNorm.email_make_id company message_id
      if existing_ids.contains row_id then
        (⟨st2.1, st2.2, st.updates⟩, none)
      else
        let row : UpdateRow :=
          { id := row_id, company := company,
            source_url := "email://" ++ filestem, title := subject,
            published_at := published_at, collected_at := now,
            clean_text := body }
        let st3 :=
          EmailMatcher.record_email_injected st2.1 st2.2 filename
            from_addr now
        (⟨st3.1, st3.2, st.updates ++ [row]⟩, some row)

/-- Total emails_received recorded for a sender (sums duplicates, so it is
well-defined on arbitrary ledger lists). -/
def receivedCount : List EmailMatcher.SenderRecord → String → Nat
  | [], _ => 0
  | r :: t, addr =>
    (if r.from_address = addr then r.emails_received else 0) +
      receivedCount t addr

/-- Total emails_processed recorded for a sender. -/
def processedCount : List EmailMatcher.SenderRecord → String → Nat
  | [], _ => 0
  | r :: t, addr =>
    (if r.from_address = addr then r.emails_processed else 0) +
      processedCount t addr

end Webhook

namespace ProcessEmails

/-!
Model of `jobs/process_emails.py` (the batch reprocessor).  Reading the
JSON file and `extract_email_content` are modeled upstream: the extracted
fields arrive as an `EmailContent`.  This job never touches
`emails.csv`/`email_senders.csv`.
-/

/-- One competitor entry of `config/monitors.yaml`. -/
structure Competitor where
  name : String
  start_urls : List String
deriving DecidableEq

/-- The fields `extract_email_content` returns. -/
structure EmailContent where
  subject : String
  from_addr : String
  message_id : String
  published_at : String
  body : String
deriving DecidableEq

/-- Match of the regex `https?://(?:www\.)?([^/]+)` at the current
position: the scheme literally, an optional greedy `www.` (with
backtracking), then a non-empty run of non-slash characters (group 1). -/
def matchHttpAt (l : List Char) : Option (List Char) :=
  let afterScheme :=
    if PyStr.startsWithL l ('h' :: 't' :: 't' :: 'p' :: ':' :: '/' :: '/' :: []) then
      some (l.drop 7)
    else if PyStr.startsWithL l ('h' :: 't' :: 't' :: 'p' :: 's' :: ':' :: '/' :: '/' :: []) then
      some (l.drop 8)
    else none
  match afterScheme with
  | none => none
  | some r1 =>
    if PyStr.startsWithL r1 ('w' :: 'w' :: 'w' :: '.' :: []) then
      let d1 := (r1.drop 4).takeWhile (fun c => c ≠ '/')
      if !d1.isEmpty then some d1
      else
        let d2 := r1.takeWhile (fun c => c ≠ '/')
        if !d2.isEmpty then some d2 else none
    else
      let d := r1.takeWhile (fun c => c ≠ '/')
      if d.isEmpty then none else some d

/-- `re.search`: try the pattern at every position, leftmost match wins. -/
def searchDomain : List Char → Option (List Char)
  | [] => none
  | c :: t =>
    match matchHttpAt (c :: t) with
    | some d => some d
    | none => searchDomain t

/-- `match_competitor` from `jobs/process_emails.py`: keywords of the
competitor name (lower-cased, parentheses blanked, whitespace-split) of
length `> 2` matched as substrings of the lower-cased sender or subject;
else the first `start_urls` domain label found in the sender. -/
def match_competitor (from_addr subject : String)
    (competitors : List Competitor) : Option String :=
  let from_lower := PyStr.lowerL from_addr.data
  let subject_lower := PyStr.lowerL subject.data
  competitors.findSome? (fun comp =>
    if comp.name = "" then none
    else
      let keywords := PyStr.splitWs (PyStr.replaceChar ')' ' '
        (PyStr.replaceChar '(' ' ' (PyStr.lowerL comp.name.data)))
      if keywords.any (fun kw => kw.length > 2 &&
          (PyStr.containsSubL from_lower kw || PyStr.containsSubL subject_lower kw)) then
        some comp.name
      else
        comp.start_urls.findSome? (fun url =>
          match searchDomain url.data with
          | none => none
          | some dom =>
            let domain := PyStr.lowerL dom
            let domain_name := domain.takeWhile (fun c => c ≠ '.')
            if PyStr.containsSubL from_lower domain_name then some comp.name
            else none))

/-- `process_email_file`: an unmatched email is relabeled
`"Newsletter (Unmatched)"` and still becomes an update row unless its id
is already present. -/
def process_email_file (content : EmailContent) (config : List Competitor)
    (existing_ids : List String) (now filestem : String) :
    Option Webhook.UpdateRow :=
  let company := (match_competitor content.from_addr content.subject config).getD
    "Newsletter (Unmatched)"
  let row_id := UrlNorm.email_make_id company content.message_id
  if existing_ids.contains row_id then none
  else
    some { id := row_id, company := company,
           source_url := "email://" ++ filestem, title := content.subject,
           published_at := content.published_at, collected_at := now,
           clean_text := content.body }

end ProcessEmails

namespace Classify

/-!
Model of `app/classify.py` `classify_article`.  The OpenAI JSON answer is
modeled as the three optional string fields the code reads out of the
parsed dict; a JSON-parse failure, a `None` content or any API exception
is the `.error ()` case of the oracle parameter.
-/

/-- The fields `classify_article` reads from the parsed oracle JSON. -/
structure RawOut where
  summary : Option String
  category : Option String
  impact : Option String
deriving DecidableEq

structure Enrichment where
  summary : String
  category : String
  impact : String
deriving DecidableEq

/-- `get_categories`: the configured list with `"Other"` appended when
missing (`DEFAULT_CATEGORIES` already contains it). -/
def get_categories (cfg : List String) : List String :=
  if cfg.contains "Other" then cfg else cfg ++ ["Other"]

/-- `_truncate`: strip, then keep the first 4000 characters. -/
def truncate (txt : String) : List Char :=
  (PyStr.stripL txt.data).take 4000

/-- `classify_article`: blank inputs and oracle failures return the
all-defaults fallback; otherwise the answer's category is coerced into the
configured set and the title-cased impact into `{High, Medium, Low}`. -/
def classify_article (cfg : List String) (oracle : Except Unit RawOut)
    (_company title body : String) : Enrichment :=
  let t := PyStr.stripL title.data
  let b := truncate body
  if b.isEmpty && t.isEmpty then ⟨"", "Other", "Low"⟩
  else
    let categories := get_categories cfg
    match oracle with
    | .error _ => ⟨"", "Other", "Low"⟩
    | .ok data =>
      let summary := PyStr.strip (data.summary.getD "")
      let category := PyStr.strip (data.category.getD "Other")
      let impact := PyStr.title (PyStr.strip (data.impact.getD ""))
      let category' := if !categories.contains category then "Other" else category
      let impact' := if !(["High", "Medium", "Low"].contains impact) then "Low" else impact
      ⟨summary, category', impact'⟩

end Classify

namespace MergeDedup

/-!
Models of the two batch-reconciliation algorithms:
`dedupe` from `jobs/update_daily.py` and `merge_keep_existing` from
`jobs/enrich_updates.py`.  Timestamps are the values after
`pd.to_datetime(errors="coerce")`: `none` is `NaT`, and `some n` a
chronological instant (larger is later).  Columns the algorithms never
consult are folded into one `payload`/`rest` field so that rows stay
distinguishable.
-/

/-- A ledger row as `dedupe` sees it. -/
structure DRow where
  company : String
  source_url : String
  published_at : Option Nat
  collected_at : Option Nat
  payload : String
deriving DecidableEq

/-- Descending order on one timestamp column with `NaT` sorted last
(`ascending=False, na_position="last"`). -/
def cmpOptDesc : Option Nat → Option Nat → Ordering
  | some x, some y => compare y x
  | some _, none => .lt
  | none, some _ => .gt
  | none, none => .eq

/-- The `sort_values(by=["published_at","collected_at"], ascending=[False,
False], na_position="last")` key order. -/
def cmpRow (r s : DRow) : Ordering :=
  (cmpOptDesc r.published_at s.published_at).then
    (cmpOptDesc r.collected_at s.collected_at)

/-- `r` may be placed before `s` in the sorted order. -/
def rowLE (r s : DRow) : Prop := cmpRow r s ≠ .gt

instance : DecidableRel rowLE := fun r s =>
  inferInstanceAs (Decidable (cmpRow r s ≠ Ordering.gt))

def keyOf (r : DRow) : String × String := (r.company, r.source_url)

/-- `drop_duplicates(subset=["company","source_url"], keep="first")`. -/
def dropDupKeys (seen : List (String × String)) : List DRow → List DRow
  | [] => []
  | r :: t =>
    if seen.contains (keyOf r) then dropDupKeys seen t
    else r :: dropDupKeys (keyOf r :: seen) t

/-- `dedupe` from `jobs/update_daily.py`: stable sort by
(published_at, collected_at), both descending with missing values last
(a pandas multi-key `sort_values` is the stable `np.lexsort`), then keep
the first row per `(company, source_url)` key. -/
def dedupe (rows : List DRow) : List DRow :=
  dropDupKeys [] (List.insertionSort rowLE rows)

/-- Ascending order on the publish date with `NaT` last
(`sort_values("published_at_norm")`: default ascending,
`na_position="last"`). -/
def cmpOptAsc : Option Nat → Option Nat → Ordering
  | some x, some y => compare x y
  | some _, none => .lt
  | none, some _ => .gt
  | none, none => .eq

/-- `r` may be placed before `s` when sorting ascending by publish date
alone. -/
def rowLEA (r s : DRow) : Prop :=
  cmpOptAsc r.published_at s.published_at ≠ .gt

instance : DecidableRel rowLEA := fun r s =>
  inferInstanceAs
    (Decidable (cmpOptAsc r.published_at s.published_at ≠ Ordering.gt))

/-- `drop_duplicates(subset=["company","source_url"], keep="last")`:
keep-first on the reversed frame, read back in the original order. -/
def dropDupKeysLast (l : List DRow) : List DRow :=
  (dropDupKeys [] l.reverse).reverse

/-- `main` from `jobs/append_updates.py`: concatenate the existing and
new batches, stable-sort ascending by `published_at_norm` alone (missing
dates last), and keep the last row per `(company, source_url)` key.  The
collection timestamp is never consulted. -/
def append_updates (base add : List DRow) : List DRow :=
  dropDupKeysLast (List.insertionSort rowLEA (base ++ add))

/-- Modelled from the spec: the "reference timestamp" of a row as §4.9 of
the spec defines it — the publish date when present, otherwise the
collection timestamp.  Used only to compare the spec's dedup rule against
the code's. -/
def specReferenceTimestamp (r : DRow) : Option Nat :=
  match r.published_at with
  | some p => some p
  | none => r.collected_at

/-- A ledger row as `merge_keep_existing` sees it. -/
structure ERow where
  company : String
  source_url : String
  summary : String
  category : String
  impact : String
  rest : String
deriving DecidableEq

/-- The per-column conflict rule `merged[c].where(merged[c].str.strip() !=
"", merged[old])`: keep the fresh value when non-blank, else the old. -/
def pickVal (fresh old : String) : String :=
  if PyStr.strip fresh ≠ "" then fresh else old

/-- `merge_keep_existing` from `jobs/enrich_updates.py`: left-join the
fresh rows with the existing enrichment columns on
`(company, source_url)` (duplicate keys on the existing side fan out, as
a pandas merge does; an unmatched fresh row gets the string `"nan"` that
`astype(str)` makes of the join's `NaN`), then apply `pickVal` per
enrichment column. -/
def merge_keep_existing (existing fresh : List ERow) : List ERow :=
  (fresh.map (fun f =>
    let hits := existing.filter (fun e =>
      e.company = f.company && e.source_url = f.source_url)
    if hits.isEmpty then
      [{ f with summary := pickVal f.summary "nan",
                category := pickVal f.category "nan",
                impact := pickVal f.impact "nan" }]
    else
      hits.map (fun e =>
        { f with summary := pickVal f.summary e.summary,
                 category := pickVal f.category e.category,
                 impact := pickVal f.impact e.impact }))).flatten

end MergeDedup

namespace DailyScan

/-!
Model of the ingestion loop of `jobs/daily_scan.py` `main`.
`crawl_all()` is the `pages` input; `parse_article` (BeautifulSoup-based,
in `app/parse.py`) is an opaque parameter because no claim depends on the
parsed fields; `now` is the collection timestamp.  A `ValueError` escaping
`normalize_url` aborts the whole job, hence the `Option` result.
-/

structure Page where
  company : String
  url : String
  html : String
deriving DecidableEq

/-- The fields of a parsed article the loop reads. -/
structure Article where
  company : String
  source_url : String
  title : String
  published_at : String
  clean_text : String
deriving DecidableEq

/-- One row appended to `data/updates.csv`. -/
structure ScanRow where
  id : String
  company : String
  source_url : String
  title : String
  published_at : String
  collected_at : String
  clean_text : String
deriving DecidableEq

/-- The crawl loop: compute the id of each page, skip it when the id is in
the ledger or was seen earlier in this run, otherwise parse and append
(`Option.bind` threads the `ValueError` a bad URL raises). -/
def scanGo (parse : Page → Article) (now : String) (existing_ids : List String) :
    List String → List ScanRow → List Page → Option (List ScanRow)
  | _, acc, [] => some acc
  | seen, acc, p :: rest =>
    (UrlNorm.make_id p.company p.url).bind (fun rid =>
      if existing_ids.contains rid || seen.contains rid then
        scanGo parse now existing_ids seen acc rest
      else
        let art := parse p
        scanGo parse now existing_ids (rid :: seen)
          (acc ++ [{ id := rid, company := art.company,
                     source_url := art.source_url, title := art.title,
                     published_at := art.published_at, collected_at := now,
                     clean_text := art.clean_text }]) rest)

/-- The `new_rows` a run of `main` appends. -/
def daily_scan_new_rows (parse : Page → Article) (now : String)
    (existing_ids : List String) (pages : List Page) : Option (List ScanRow) :=
  scanGo parse now existing_ids [] [] pages

end DailyScan

/-! ### Shared helper lemmas -/

theorem contains_true_iff_mem {α : Type} [BEq α] [LawfulBEq α] {l : List α} {a : α} :
    l.contains a = true ↔ a ∈ l := by
  simp [List.contains, List.elem_iff]

theorem other_mem_get_categories (cfg : List String) :
    "Other" ∈ Classify.get_categories cfg := by
  unfold Classify.get_categories
  split
  · next h => exact contains_true_iff_mem.mp h
  · exact List.mem_append_right _ (List.mem_singleton.mpr rfl)

/-! ### C9 -/

/-- C9: for every sender whose Sender Record carries an assigned company,
`match_email_to_competitor` returns that company for every oracle — so the
result is independent of the oracle's behavior: any two oracle behaviors
produce the same answer for such a sender. -/
theorem assigned_sender_match_oracle_independent
    (senders : List EmailMatcher.SenderRecord) (names : List String)
    (from_address subject body a : String)
    (h : EmailMatcher.get_sender_assigned_company senders from_address = some a) :
    (∀ oracle, EmailMatcher.match_email_to_competitor senders names oracle
        from_address subject body = some a) ∧
    (∀ o₁ o₂, EmailMatcher.match_email_to_competitor senders names o₁
        from_address subject body =
      EmailMatcher.match_email_to_competitor senders names o₂
        from_address subject body) := by
  constructor
  · intro oracle
    unfold EmailMatcher.match_email_to_competitor
    rw [h]
  · intro o₁ o₂
    unfold EmailMatcher.match_email_to_competitor
    rw [h]

/-- Witness for C9: a sender assigned to `Acme` is matched to `Acme` even
though the oracle answers `Zeta`. -/
theorem assigned_sender_match_oracle_independent_witness :
    EmailMatcher.get_sender_assigned_company
      [⟨"a@x.com", 0, 0, 0, "Acme", "t0"⟩] "a@x.com" = some "Acme" ∧
    EmailMatcher.match_email_to_competitor
      [⟨"a@x.com", 0, 0, 0, "Acme", "t0"⟩] ["Acme", "Zeta"]
      (Except.ok "Zeta") "a@x.com" "subj" "body" = some "Acme" :=
  ⟨by decide,
   (assigned_sender_match_oracle_independent
     [⟨"a@x.com", 0, 0, 0, "Acme", "t0"⟩] ["Acme", "Zeta"]
     "a@x.com" "subj" "body" "Acme" (by decide)).1 (Except.ok "Zeta")⟩

/-! ### C10 -/

/-- C10: when the oracle raises, the quality gate accepts (fail open)
while the competitor matcher (for a sender without a manual assignment)
returns no match (fail closed); both embeddings are total functions, so
neither propagates an exception. -/
theorem oracle_failure_gate_open_matcher_closed :
    (∀ from_address subject body,
      EmailMatcher.check_email_quality (Except.error ()) from_address subject
        body = true) ∧
    (∀ (senders : List EmailMatcher.SenderRecord) (names : List String)
        (from_address subject body : String),
      EmailMatcher.get_sender_assigned_company senders from_address = none →
      EmailMatcher.match_email_to_competitor senders names
        (Except.error ()) from_address subject body = none) := by
  constructor
  · intro f s b
    rfl
  · intro senders names f s b h
    unfold EmailMatcher.match_email_to_competitor
    rw [h]
    cases names <;> rfl

/-- Witness for C10 at a concrete sender ledger and competitor list. -/
theorem oracle_failure_gate_open_matcher_closed_witness :
    EmailMatcher.check_email_quality (Except.error ()) "a@x.com" "s" "b" = true ∧
    EmailMatcher.get_sender_assigned_company
      [⟨"b@y.com", 1, 0, 0, "", "t0"⟩] "a@x.com" = none ∧
    EmailMatcher.match_email_to_competitor
      [⟨"b@y.com", 1, 0, 0, "", "t0"⟩] ["Acme"] (Except.error ())
      "a@x.com" "s" "b" = none :=
  ⟨oracle_failure_gate_open_matcher_closed.1 "a@x.com" "s" "b",
   by decide,
   oracle_failure_gate_open_matcher_closed.2
     [⟨"b@y.com", 1, 0, 0, "", "t0"⟩] ["Acme"] "a@x.com" "s" "b" (by decide)⟩

/-! ### C8 -/

/-- C8: `classify_article` always returns a category in the configured set
and an impact in `{High, Medium, Low}`; a category answer outside the set
is coerced to `Other` and an impact whose title-cased form is outside the
set to `Low`; and an oracle failure returns exactly
`{summary "", category "Other", impact "Low"}` (the embedding is a total
function: nothing is raised). -/
theorem classify_article_coercion_and_fallback
    (cfg : List String) (oracle : Except Unit Classify.RawOut)
    (company title body : String) :
    (Classify.classify_article cfg oracle company title body).category ∈
        Classify.get_categories cfg ∧
    (Classify.classify_article cfg oracle company title body).impact ∈
        (["High", "Medium", "Low"] : List String) ∧
    (oracle = Except.error () →
      Classify.classify_article cfg oracle company title body =
        ⟨"", "Other", "Low"⟩) ∧
    (∀ raw, oracle = Except.ok raw →
      ((PyStr.strip (raw.category.getD "Other")) ∉ Classify.get_categories cfg →
        (Classify.classify_article cfg oracle company title body).category =
          "Other") ∧
      ((PyStr.title (PyStr.strip (raw.impact.getD ""))) ∉
          (["High", "Medium", "Low"] : List String) →
        (Classify.classify_article cfg oracle company title body).impact =
          "Low")) := by
  unfold Classify.classify_article
  by_cases hblank : (Classify.truncate body).isEmpty ∧ (PyStr.stripL title.data).isEmpty
  · rw [if_pos (by simp [hblank.1, hblank.2])]
    refine ⟨other_mem_get_categories cfg, by simp, fun _ => rfl, fun raw _ => ⟨fun _ => rfl, fun _ => rfl⟩⟩
  · rw [if_neg (by simpa [Bool.and_eq_true] using hblank)]
    cases oracle with
    | error u =>
      refine ⟨other_mem_get_categories cfg, by simp, fun _ => rfl, ?_⟩
      intro raw hr
      exact absurd hr (by simp)
    | ok raw =>
      refine ⟨?_, ?_, ?_, ?_⟩
      · by_cases hc : (Classify.get_categories cfg).contains
            (PyStr.strip (raw.category.getD "Other"))
        · simp only [hc]
          simpa using contains_true_iff_mem.mp hc
        · simp only [hc]
          simpa using other_mem_get_categories cfg
      · by_cases hi : (["High", "Medium", "Low"] : List String).contains
            (PyStr.title (PyStr.strip (raw.impact.getD "")))
        · simp only [hi]
          simpa using contains_true_iff_mem.mp hi
        · simp only [hi]
          simp
      · intro he
        exact absurd he (by simp)
      · intro raw2 hr
        cases hr
        constructor
        · intro hnc
          have hceq : (Classify.get_categories cfg).contains
              (PyStr.strip (raw.category.getD "Other")) = false := by
            by_contra hb
            simp only [Bool.not_eq_false] at hb
            exact hnc (contains_true_iff_mem.mp hb)
          simp [hceq]
          exact fun hm => absurd hm hnc
        · intro hni
          have hieq : (["High", "Medium", "Low"] : List String).contains
              (PyStr.title (PyStr.strip (raw.impact.getD ""))) = false := by
            by_contra hb
            simp only [Bool.not_eq_false] at hb
            exact hni (contains_true_iff_mem.mp hb)
          simp [hieq]
          intro himp
          exact himp (fun h => hni (by simp [h])) (fun h => hni (by simp [h]))

/-- Witness for C8: the spec scenario — the classifier answers category
`Bogus` and impact `Critical`, and the result is coerced to
`Other`/`Low`; the failing oracle returns the all-defaults record. -/
theorem classify_article_coercion_and_fallback_witness :
    (Classify.classify_article ["Product", "Pricing"]
        (Except.ok ⟨some "sum", some "Bogus", some "Critical"⟩)
        "Acme" "Title" "Body").category = "Other" ∧
    (Classify.classify_article ["Product", "Pricing"]
        (Except.ok ⟨some "sum", some "Bogus", some "Critical"⟩)
        "Acme" "Title" "Body").impact = "Low" ∧
    Classify.classify_article ["Product", "Pricing"] (Except.error ())
        "Acme" "Title" "Body" = ⟨"", "Other", "Low"⟩ :=
  ⟨((classify_article_coercion_and_fallback ["Product", "Pricing"]
      (Except.ok ⟨some "sum", some "Bogus", some "Critical"⟩)
      "Acme" "Title" "Body").2.2.2 ⟨some "sum", some "Bogus", some "Critical"⟩
      rfl).1 (by decide),
   ((classify_article_coercion_and_fallback ["Product", "Pricing"]
      (Except.ok ⟨some "sum", some "Bogus", some "Critical"⟩)
      "Acme" "Title" "Body").2.2.2 ⟨some "sum", some "Bogus", some "Critical"⟩
      rfl).2 (by decide),
   (classify_article_coercion_and_fallback ["Product", "Pricing"]
      (Except.error ()) "Acme" "Title" "Body").2.2.1 rfl⟩

/-! ### C5: order lemmas for `dedupe` -/

namespace MergeDedup

theorem cmpOptDesc_self (a : Option Nat) : cmpOptDesc a a = Ordering.eq := by
  cases a with
  | none => rfl
  | some x => simp [cmpOptDesc, Nat.compare_eq_eq]

theorem cmpOptDesc_eq_iff (a b : Option Nat) :
    cmpOptDesc a b = Ordering.eq ↔ a = b := by
  cases a <;> cases b <;> simp [cmpOptDesc]
  rw [Nat.compare_eq_eq]
  exact eq_comm

theorem cmpOptDesc_lt_of_gt {a b : Option Nat}
    (h : cmpOptDesc a b = Ordering.gt) :
    cmpOptDesc b a = Ordering.lt := by
  unfold cmpOptDesc at *
  cases a <;> cases b <;>
    simp_all [Nat.compare_eq_gt, Nat.compare_eq_lt, Nat.compare_eq_eq]

theorem then_ne_gt (o₁ o₂ : Ordering) :
    o₁.then o₂ ≠ Ordering.gt ↔
      o₁ = Ordering.lt ∨ (o₁ = Ordering.eq ∧ o₂ ≠ Ordering.gt) := by
  cases o₁ <;> simp [Ordering.then]

/-- `cmpOptDesc a b ≠ gt`: `a` sorts no later than `b`. -/
def leOpt (a b : Option Nat) : Prop := cmpOptDesc a b ≠ Ordering.gt

theorem leOpt_trans {a b c : Option Nat} (h₁ : leOpt a b) (h₂ : leOpt b c) :
    leOpt a c := by
  unfold leOpt cmpOptDesc at *
  cases a <;> cases b <;> cases c <;>
    simp_all [Nat.compare_eq_gt, Nat.compare_eq_lt, Nat.compare_eq_eq] <;> omega

theorem leOpt_total (a b : Option Nat) : leOpt a b ∨ leOpt b a := by
  unfold leOpt cmpOptDesc
  cases a <;> cases b <;>
    simp_all [Nat.compare_eq_gt, Nat.compare_eq_lt, Nat.compare_eq_eq] <;> omega

theorem ltOpt_of_lt_of_le {a b c : Option Nat}
    (h₁ : cmpOptDesc a b = Ordering.lt) (h₂ : leOpt b c) :
    cmpOptDesc a c = Ordering.lt := by
  unfold leOpt cmpOptDesc at *
  cases a <;> cases b <;> cases c <;>
    simp_all [Nat.compare_eq_gt, Nat.compare_eq_lt, Nat.compare_eq_eq] <;> omega

theorem ltOpt_of_le_of_lt {a b c : Option Nat}
    (h₁ : leOpt a b) (h₂ : cmpOptDesc b c = Ordering.lt) :
    cmpOptDesc a c = Ordering.lt := by
  unfold leOpt cmpOptDesc at *
  cases a <;> cases b <;> cases c <;>
    simp_all [Nat.compare_eq_gt, Nat.compare_eq_lt, Nat.compare_eq_eq] <;> omega

theorem rowLE_refl (r : DRow) : rowLE r r := by
  unfold rowLE cmpRow
  simp [cmpOptDesc_self, Ordering.then]

theorem rowLE_iff (r s : DRow) :
    rowLE r s ↔
      cmpOptDesc r.published_at s.published_at = Ordering.lt ∨
        (r.published_at = s.published_at ∧
          leOpt r.collected_at s.collected_at) := by
  unfold rowLE cmpRow leOpt
  rw [then_ne_gt, cmpOptDesc_eq_iff]

instance : IsTrans DRow rowLE where
  trans r s t h₁ h₂ := by
    rw [rowLE_iff] at h₁ h₂ ⊢
    rcases h₁ with h₁ | ⟨he₁, hc₁⟩
    · rcases h₂ with h₂ | ⟨he₂, hc₂⟩
      · refine Or.inl (ltOpt_of_lt_of_le h₁ ?_)
        unfold leOpt
        rw [h₂]
        simp
      · exact Or.inl (he₂ ▸ h₁)
    · rcases h₂ with h₂ | ⟨he₂, hc₂⟩
      · exact Or.inl (he₁ ▸ h₂)
      · exact Or.inr ⟨he₁.trans he₂, leOpt_trans hc₁ hc₂⟩

instance : IsTotal DRow rowLE where
  total r s := by
    rw [rowLE_iff, rowLE_iff]
    rcases ho : cmpOptDesc r.published_at s.published_at with _ | _ | _
    · exact Or.inl (Or.inl rfl)
    · have he : r.published_at = s.published_at := (cmpOptDesc_eq_iff _ _).mp ho
      rcases leOpt_total r.collected_at s.collected_at with h | h
      · exact Or.inl (Or.inr ⟨he, h⟩)
      · exact Or.inr (Or.inr ⟨he.symm, h⟩)
    · exact Or.inr (Or.inl (cmpOptDesc_lt_of_gt ho))

end MergeDedup

namespace MergeDedup

theorem keyOf_not_mem_seen_of_mem_dropDupKeys {r : DRow} :
    ∀ (l : List DRow) (seen : List (String × String)),
      r ∈ dropDupKeys seen l → keyOf r ∉ seen
  | [], _, h => by simp [dropDupKeys] at h
  | a :: t, seen, h => by
    unfold dropDupKeys at h
    split at h
    · exact keyOf_not_mem_seen_of_mem_dropDupKeys t seen h
    · next hnotin =>
      rcases List.mem_cons.mp h with rfl | hmem
      · intro hc
        exact hnotin (List.contains_iff_exists_mem_beq.mpr ⟨_, hc, by simp⟩)
      · intro hc
        exact (keyOf_not_mem_seen_of_mem_dropDupKeys t _ hmem)
          (List.mem_cons_of_mem _ hc)

theorem mem_of_mem_dropDupKeys {r : DRow} :
    ∀ (l : List DRow) (seen : List (String × String)),
      r ∈ dropDupKeys seen l → r ∈ l
  | [], _, h => by simp [dropDupKeys] at h
  | a :: t, seen, h => by
    unfold dropDupKeys at h
    split at h
    · exact List.mem_cons_of_mem _ (mem_of_mem_dropDupKeys t seen h)
    · rcases List.mem_cons.mp h with rfl | hmem
      · exact List.mem_cons_self _ _
      · exact List.mem_cons_of_mem _ (mem_of_mem_dropDupKeys t _ hmem)

theorem dropDupKeys_first_le {r : DRow} :
    ∀ (l : List DRow) (seen : List (String × String)),
      List.Pairwise rowLE l → r ∈ dropDupKeys seen l →
      ∀ s ∈ l, keyOf s = keyOf r → rowLE r s
  | [], _, _, h => by simp [dropDupKeys] at h
  | a :: t, seen, hp, h => by
    unfold dropDupKeys at h
    have hpt : List.Pairwise rowLE t := hp.tail
    split at h
    · next hin =>
      intro s hs hkey
      rcases List.mem_cons.mp hs with heq | hmem
      · exfalso
        rcases List.contains_iff_exists_mem_beq.mp hin with ⟨k, hk, hbeq⟩
        have hq : keyOf a = k := by simpa using hbeq
        have hrs : keyOf r ∈ seen := by
          rw [← hkey, heq, hq]
          exact hk
        exact keyOf_not_mem_seen_of_mem_dropDupKeys t seen h hrs
      · exact dropDupKeys_first_le t seen hpt h s hmem hkey
    · next hnotin =>
      rcases List.mem_cons.mp h with heq | hmem
      · intro s hs hkey
        rcases List.mem_cons.mp hs with heq2 | hmem2
        · rw [heq, heq2]
          exact rowLE_refl a
        · rw [heq]
          exact (List.pairwise_cons.mp hp).1 s hmem2
      · intro s hs hkey
        rcases List.mem_cons.mp hs with heq2 | hmem2
        · exfalso
          have hin2 : keyOf r ∈ keyOf a :: seen := by
            rw [← hkey, heq2]
            exact List.mem_cons_self _ _
          exact keyOf_not_mem_seen_of_mem_dropDupKeys t _ hmem hin2
        · exact dropDupKeys_first_le t _ hpt hmem s hmem2 hkey

theorem dropDupKeys_covers {s : DRow} :
    ∀ (l : List DRow) (seen : List (String × String)),
      s ∈ l → keyOf s ∉ seen →
      ∃ r ∈ dropDupKeys seen l, keyOf r = keyOf s
  | [], _, hs, _ => by simp at hs
  | a :: t, seen, hs, hnot => by
    unfold dropDupKeys
    rcases List.mem_cons.mp hs with heq | hmem
    · split
      · next hin =>
        exfalso
        rcases List.contains_iff_exists_mem_beq.mp hin with ⟨k, hk, hbeq⟩
        have hq : keyOf a = k := by simpa using hbeq
        apply hnot
        rw [heq, hq]
        exact hk
      · exact ⟨a, List.mem_cons_self _ _, by rw [heq]⟩
    · split
      · next hin => exact dropDupKeys_covers t seen hmem hnot
      · next hnotin =>
        by_cases hk : keyOf s = keyOf a
        · exact ⟨a, List.mem_cons_self _ _, hk.symm⟩
        · rcases dropDupKeys_covers t (keyOf a :: seen) hmem
              (by simp [hk, hnot]) with ⟨r, hr, hkey⟩
          exact ⟨r, List.mem_cons_of_mem _ hr, hkey⟩

theorem dropDupKeys_nodup_keys :
    ∀ (l : List DRow) (seen : List (String × String)),
      (dropDupKeys seen l).Pairwise (fun a b => keyOf a ≠ keyOf b)
  | [], _ => by simp [dropDupKeys]
  | a :: t, seen => by
    unfold dropDupKeys
    split
    · exact dropDupKeys_nodup_keys t seen
    · refine List.pairwise_cons.mpr ⟨?_, dropDupKeys_nodup_keys t _⟩
      intro b hb heq
      exact keyOf_not_mem_seen_of_mem_dropDupKeys t _ hb
        (heq ▸ List.mem_cons_self _ _)

theorem cmpOptAsc_le_trans {a b c : Option Nat}
    (h₁ : cmpOptAsc a b ≠ .gt) (h₂ : cmpOptAsc b c ≠ .gt) :
    cmpOptAsc a c ≠ .gt := by
  unfold cmpOptAsc at *
  cases a <;> cases b <;> cases c <;>
    simp_all [Nat.compare_eq_gt, Nat.compare_eq_lt, Nat.compare_eq_eq] <;> omega

theorem cmpOptAsc_le_total (a b : Option Nat) :
    cmpOptAsc a b ≠ .gt ∨ cmpOptAsc b a ≠ .gt := by
  unfold cmpOptAsc
  cases a <;> cases b <;>
    simp_all [Nat.compare_eq_gt, Nat.compare_eq_lt, Nat.compare_eq_eq] <;> omega

theorem rowLEA_refl (r : DRow) : rowLEA r r := by
  unfold rowLEA cmpOptAsc
  cases r.published_at <;>
    simp_all [Nat.compare_eq_gt]

instance : IsTrans DRow rowLEA where
  trans _ _ _ h₁ h₂ := cmpOptAsc_le_trans h₁ h₂

instance : IsTotal DRow rowLEA where
  total r s := cmpOptAsc_le_total _ _

/-- `dropDupKeys_first_le` for an arbitrary reflexive pairwise order. -/
theorem dropDupKeys_first_rel {R : DRow → DRow → Prop}
    (hrefl : ∀ a, R a a) {r : DRow} :
    ∀ (l : List DRow) (seen : List (String × String)),
      List.Pairwise R l → r ∈ dropDupKeys seen l →
      ∀ s ∈ l, keyOf s = keyOf r → R r s
  | [], _, _, h => by simp [dropDupKeys] at h
  | a :: t, seen, hp, h => by
    unfold dropDupKeys at h
    have hpt : List.Pairwise R t := hp.tail
    split at h
    · next hin =>
      intro s hs hkey
      rcases List.mem_cons.mp hs with heq | hmem
      · exfalso
        rcases List.contains_iff_exists_mem_beq.mp hin with ⟨k, hk, hbeq⟩
        have hq : keyOf a = k := by simpa using hbeq
        have hrs : keyOf r ∈ seen := by
          rw [← hkey, heq, hq]
          exact hk
        exact keyOf_not_mem_seen_of_mem_dropDupKeys t seen h hrs
      · exact dropDupKeys_first_rel hrefl t seen hpt h s hmem hkey
    · next hnotin =>
      rcases List.mem_cons.mp h with heq | hmem
      · intro s hs hkey
        rcases List.mem_cons.mp hs with heq2 | hmem2
        · rw [heq, heq2]
          exact hrefl a
        · rw [heq]
          exact (List.pairwise_cons.mp hp).1 s hmem2
      · intro s hs hkey
        rcases List.mem_cons.mp hs with heq2 | hmem2
        · exfalso
          have hin2 : keyOf r ∈ keyOf a :: seen := by
            rw [← hkey, heq2]
            exact List.mem_cons_self _ _
          exact keyOf_not_mem_seen_of_mem_dropDupKeys t _ hmem hin2
        · exact dropDupKeys_first_rel hrefl t _ hpt hmem s hmem2 hkey

theorem mem_append_updates_iff {r : DRow} (base add : List DRow) :
    r ∈ append_updates base add ↔
      r ∈ dropDupKeys [] (List.insertionSort rowLEA (base ++ add)).reverse := by
  unfold append_updates dropDupKeysLast
  exact List.mem_reverse

theorem append_updates_nodup_keys (base add : List DRow) :
    (append_updates base add).Pairwise (fun a b => keyOf a ≠ keyOf b) := by
  unfold append_updates dropDupKeysLast
  rw [List.pairwise_reverse]
  exact (dropDupKeys_nodup_keys _ _).imp (fun h => Ne.symm h)

theorem append_updates_covers {s : DRow} (base add : List DRow)
    (hs : s ∈ base ++ add) :
    ∃ r ∈ append_updates base add, keyOf r = keyOf s := by
  have hs2 : s ∈ (List.insertionSort rowLEA (base ++ add)).reverse := by
    rw [List.mem_reverse]
    exact (List.mem_insertionSort _).mpr hs
  rcases dropDupKeys_covers _ [] hs2 (by simp) with ⟨r, hr, hk⟩
  exact ⟨r, (mem_append_updates_iff base add).mpr hr, hk⟩

theorem append_updates_keeps_last {r : DRow} (base add : List DRow)
    (hr : r ∈ append_updates base add) :
    ∀ s ∈ base ++ add, keyOf s = keyOf r → rowLEA s r := by
  intro s hs hk
  have hrev : (List.insertionSort rowLEA (base ++ add)).reverse.Pairwise
      (fun a b => rowLEA b a) := by
    rw [List.pairwise_reverse]
    exact List.sorted_insertionSort rowLEA (base ++ add)
  exact dropDupKeys_first_rel (R := fun a b => rowLEA b a) rowLEA_refl
    _ [] hrev ((mem_append_updates_iff base add).mp hr) s
    (by rw [List.mem_reverse]; exact (List.mem_insertionSort _).mpr hs) hk

end MergeDedup

/-! ### C5 -/

/-- C5 (amended): each of the two merges keeps exactly one row per
`(company, source_url)` key — every input key survives and the output's
keys are pairwise distinct — but neither follows the spec's
reference-timestamp rule, and they disagree with each other.
`update_daily.dedupe` keeps the row that sorts first under "descending
(published_at, collected_at), missing values last": the publish date is
the primary key and the collection timestamp only a tie-breaker.
`append_updates.main` stable-sorts ascending by the publish date alone
with missing dates last and keeps the *last* row per key: an undated row
beats every dated one and the collection timestamp is never consulted. -/
theorem dedupe_keeps_sort_first_append_keeps_sort_last
    (rows base add : List MergeDedup.DRow) :
    ((MergeDedup.dedupe rows).Pairwise
      (fun a b => MergeDedup.keyOf a ≠ MergeDedup.keyOf b) ∧
     (∀ s ∈ rows, ∃ r ∈ MergeDedup.dedupe rows,
       MergeDedup.keyOf r = MergeDedup.keyOf s) ∧
     (∀ r ∈ MergeDedup.dedupe rows, ∀ s ∈ rows,
       MergeDedup.keyOf s = MergeDedup.keyOf r → MergeDedup.rowLE r s)) ∧
    ((MergeDedup.append_updates base add).Pairwise
      (fun a b => MergeDedup.keyOf a ≠ MergeDedup.keyOf b) ∧
     (∀ s ∈ base ++ add, ∃ r ∈ MergeDedup.append_updates base add,
       MergeDedup.keyOf r = MergeDedup.keyOf s) ∧
     (∀ r ∈ MergeDedup.append_updates base add, ∀ s ∈ base ++ add,
       MergeDedup.keyOf s = MergeDedup.keyOf r → MergeDedup.rowLEA s r)) := by
  refine ⟨⟨?_, ?_, ?_⟩, ?_, ?_, ?_⟩
  · exact MergeDedup.dropDupKeys_nodup_keys _ _
  · intro s hs
    exact MergeDedup.dropDupKeys_covers _ []
      ((List.mem_insertionSort _).mpr hs) (by simp)
  · intro r hr s hs hkey
    exact MergeDedup.dropDupKeys_first_le _ []
      (List.sorted_insertionSort MergeDedup.rowLE rows) hr s
      ((List.mem_insertionSort _).mpr hs) hkey
  · exact MergeDedup.append_updates_nodup_keys base add
  · intro s hs
    exact MergeDedup.append_updates_covers base add hs
  · intro r hr s hs hkey
    exact MergeDedup.append_updates_keeps_last base add hr s hs hkey

/-- Witness for C5 (amended) on concrete two-row merges. -/
theorem dedupe_keeps_sort_first_append_keeps_sort_last_witness :
    (∃ r ∈ MergeDedup.dedupe
        [⟨"A", "u", some 100, some 100, "old"⟩,
         ⟨"A", "u", none, some 999, "new"⟩],
      MergeDedup.keyOf r =
        MergeDedup.keyOf
          (⟨"A", "u", none, some 999, "new"⟩ : MergeDedup.DRow)) ∧
    (∃ r ∈ MergeDedup.append_updates
        [⟨"A", "u", some 100, some 100, "old"⟩]
        [⟨"A", "u", none, some 50, "new"⟩],
      MergeDedup.keyOf r =
        MergeDedup.keyOf
          (⟨"A", "u", none, some 50, "new"⟩ : MergeDedup.DRow)) :=
  ⟨(dedupe_keeps_sort_first_append_keeps_sort_last
      [⟨"A", "u", some 100, some 100, "old"⟩,
       ⟨"A", "u", none, some 999, "new"⟩] [] []).1.2.1
      ⟨"A", "u", none, some 999, "new"⟩ (by decide),
   (dedupe_keeps_sort_first_append_keeps_sort_last []
      [⟨"A", "u", some 100, some 100, "old"⟩]
      [⟨"A", "u", none, some 50, "new"⟩]).2.2.1
      ⟨"A", "u", none, some 50, "new"⟩ (by decide)⟩

/-- Counterexample for C5 as stated, on both cited merges.
`update_daily.dedupe`: merging a dated row with an undated re-observation
of the same item keeps the dated row even though the undated row's
reference timestamp (its collection time, 999) is more recent than the
kept row's (publish date 100).  `append_updates.main`: the same merge run
through the append path keeps the *undated* row even when its reference
timestamp (collection time 50) is older than the dated row's (publish
date 100) — so neither merge keeps the row with the most recent
reference timestamp. -/
theorem dedupe_counterexample_reference_timestamp :
    MergeDedup.dedupe
      [⟨"A", "u", some 100, some 100, "old"⟩,
       ⟨"A", "u", none, some 999, "new"⟩] =
      [⟨"A", "u", some 100, some 100, "old"⟩] ∧
    MergeDedup.append_updates
      [⟨"A", "u", some 100, some 100, "old"⟩]
      [⟨"A", "u", none, some 50, "new"⟩] =
      [⟨"A", "u", none, some 50, "new"⟩] ∧
    MergeDedup.specReferenceTimestamp ⟨"A", "u", some 100, some 100, "old"⟩ =
      some 100 ∧
    MergeDedup.specReferenceTimestamp ⟨"A", "u", none, some 999, "new"⟩ =
      some 999 ∧
    MergeDedup.specReferenceTimestamp ⟨"A", "u", none, some 50, "new"⟩ =
      some 50 := by
  refine ⟨?_, ?_, rfl, rfl, rfl⟩
  · decide
  · decide

/-! ### C6 -/

/-- C6: the enrichment merge never lets a blank incoming value overwrite
an existing one — for every matching (existing, fresh) pair of rows the
merged output contains a row carrying, per enrichment column, the fresh
value when it is non-blank and the existing value otherwise; and
`pickVal` returns the existing value exactly when the incoming one is
blank, so a non-empty existing summary/category/impact survives a blank
re-ingestion. -/
theorem merge_keep_existing_preserves_enrichment
    (existing fresh : List MergeDedup.ERow) (e f : MergeDedup.ERow)
    (he : e ∈ existing) (hf : f ∈ fresh)
    (hc : e.company = f.company) (hu : e.source_url = f.source_url) :
    (∃ r ∈ MergeDedup.merge_keep_existing existing fresh,
      r.company = f.company ∧ r.source_url = f.source_url ∧
      r.summary = MergeDedup.pickVal f.summary e.summary ∧
      r.category = MergeDedup.pickVal f.category e.category ∧
      r.impact = MergeDedup.pickVal f.impact e.impact) ∧
    (∀ fv ev : String, PyStr.strip fv = "" → MergeDedup.pickVal fv ev = ev) := by
  constructor
  · unfold MergeDedup.merge_keep_existing
    have hemem : e ∈ existing.filter (fun x =>
        x.company = f.company && x.source_url = f.source_url) := by
      rw [List.mem_filter]
      exact ⟨he, by simp [hc, hu]⟩
    have hne : (existing.filter (fun x =>
        x.company = f.company && x.source_url = f.source_url)).isEmpty = false := by
      rcases hq : (existing.filter (fun x =>
          x.company = f.company && x.source_url = f.source_url)) with _ | _
      · rw [hq] at hemem
        simp at hemem
      · rw [hq]
        rfl
    refine ⟨{ f with
        summary := MergeDedup.pickVal f.summary e.summary
        category := MergeDedup.pickVal f.category e.category
        impact := MergeDedup.pickVal f.impact e.impact }, ?_,
      rfl, rfl, rfl, rfl, rfl⟩
    rw [List.mem_flatten]
    refine ⟨_, List.mem_map_of_mem _ hf, ?_⟩
    rw [if_neg (by simp [hne])]
    exact List.mem_map_of_mem _ hemem
  · intro fv ev hblank
    unfold MergeDedup.pickVal
    rw [if_neg (by simp [hblank])]

/-- Witness for C6: an existing enriched row and a blank fresh
re-ingestion of the same key — the merged output keeps summary `S1`,
category `C1`, impact `High`. -/
theorem merge_keep_existing_preserves_enrichment_witness :
    ∃ r ∈ MergeDedup.merge_keep_existing
        [⟨"Acme", "https://a/x", "S1", "C1", "High", "old"⟩]
        [⟨"Acme", "https://a/x", "", " ", "", "fresh"⟩],
      r.company = "Acme" ∧ r.source_url = "https://a/x" ∧
      r.summary = "S1" ∧ r.category = "C1" ∧ r.impact = "High" := by
  obtain ⟨⟨r, hr, h1, h2, h3, h4, h5⟩, hpick⟩ :=
    merge_keep_existing_preserves_enrichment
      [⟨"Acme", "https://a/x", "S1", "C1", "High", "old"⟩]
      [⟨"Acme", "https://a/x", "", " ", "", "fresh"⟩]
      ⟨"Acme", "https://a/x", "S1", "C1", "High", "old"⟩
      ⟨"Acme", "https://a/x", "", " ", "", "fresh"⟩
      (by decide) (by decide) rfl rfl
  refine ⟨r, hr, h1, h2, ?_, ?_, ?_⟩
  · rw [h3]
    decide
  · rw [h4]
    decide
  · rw [h5]
    decide

/-! ### C3 -/

namespace DailyScan

theorem scanGo_nil (parse : Page → Article) (now : String)
    (existing : List String) (seen : List String) (acc : List ScanRow) :
    scanGo parse now existing seen acc [] = some acc := rfl

theorem scanGo_cons (parse : Page → Article) (now : String)
    (existing : List String) (seen : List String) (acc : List ScanRow)
    (p : Page) (rest : List Page) :
    scanGo parse now existing seen acc (p :: rest) =
      (UrlNorm.make_id p.company p.url).bind (fun rid =>
        if existing.contains rid || seen.contains rid then
          scanGo parse now existing seen acc rest
        else
          let art := parse p
          scanGo parse now existing (rid :: seen)
            (acc ++ [{ id := rid, company := art.company,
                       source_url := art.source_url, title := art.title,
                       published_at := art.published_at, collected_at := now,
                       clean_text := art.clean_text }]) rest) := rfl

theorem scanGo_acc_prefix (parse : Page → Article) (now : String)
    (existing : List String) :
    ∀ (pages : List Page) (seen : List String) (acc rows : List ScanRow),
      scanGo parse now existing seen acc pages = some rows →
      ∃ tail, rows = acc ++ tail
  | [], _, acc, rows, h => by
    rw [scanGo_nil] at h
    exact ⟨[], by simp [← Option.some.inj h]⟩
  | p :: rest, seen, acc, rows, h => by
    rw [scanGo_cons] at h
    rcases hm : UrlNorm.make_id p.company p.url with _ | rid
    · rw [hm, Option.none_bind] at h
      cases h
    · rw [hm, Option.some_bind] at h
      split at h
      · exact scanGo_acc_prefix parse now existing rest seen acc rows h
      · rcases scanGo_acc_prefix parse now existing rest _ _ rows h with ⟨tail, ht⟩
        exact ⟨_ :: tail, by simpa using ht⟩

theorem scanGo_covers (parse : Page → Article) (now : String)
    (existing : List String) :
    ∀ (pages : List Page) (seen : List String) (acc rows : List ScanRow),
      scanGo parse now existing seen acc pages = some rows →
      ∀ p ∈ pages, ∃ rid, UrlNorm.make_id p.company p.url = some rid ∧
        (rid ∈ existing ∨ rid ∈ seen ∨ rid ∈ rows.map (fun r => r.id))
  | [], _, _, _, _ => by
    intro p hp
    simp at hp
  | p :: rest, seen, acc, rows, h => by
    intro q hq
    rw [scanGo_cons] at h
    rcases hm : UrlNorm.make_id p.company p.url with _ | rid
    · rw [hm, Option.none_bind] at h
      cases h
    · rw [hm, Option.some_bind] at h
      split at h
      · next hcond =>
        rcases List.mem_cons.mp hq with heq | hmem
        · refine ⟨rid, heq ▸ hm, ?_⟩
          rcases Bool.or_eq_true_iff.mp hcond with hc | hc
          · exact Or.inl (contains_true_iff_mem.mp hc)
          · exact Or.inr (Or.inl (contains_true_iff_mem.mp hc))
        · exact scanGo_covers parse now existing rest seen acc rows h q hmem
      · rcases List.mem_cons.mp hq with heq | hmem
        · refine ⟨rid, heq ▸ hm, Or.inr (Or.inr ?_)⟩
          rcases scanGo_acc_prefix parse now existing rest _ _ rows h with ⟨tail, ht⟩
          rw [ht]
          simp
        · rcases scanGo_covers parse now existing rest _ _ rows h q hmem with
            ⟨rid2, hm2, hloc⟩
          refine ⟨rid2, hm2, ?_⟩
          rcases hloc with hl | hl | hl
          · exact Or.inl hl
          · rcases List.mem_cons.mp hl with heq2 | hmem2
            · refine Or.inr (Or.inr ?_)
              rcases scanGo_acc_prefix parse now existing rest _ _ rows h with
                ⟨tail, ht⟩
              rw [ht, heq2]
              simp
            · exact Or.inr (Or.inl hmem2)
          · exact Or.inr (Or.inr hl)

theorem scanGo_all_known (parse : Page → Article) (now : String)
    (existing : List String) :
    ∀ (pages : List Page) (seen : List String) (acc : List ScanRow),
      (∀ p ∈ pages, ∃ rid, UrlNorm.make_id p.company p.url = some rid ∧
        (rid ∈ existing ∨ rid ∈ seen)) →
      scanGo parse now existing seen acc pages = some acc
  | [], _, _, _ => rfl
  | p :: rest, seen, acc, hcov => by
    rcases hcov p (List.mem_cons_self _ _) with ⟨rid, hm, hloc⟩
    rw [scanGo_cons, hm, Option.some_bind, if_pos ?_]
    · exact scanGo_all_known parse now existing rest seen acc
        (fun q hq => hcov q (List.mem_cons_of_mem _ hq))
    · rcases hloc with hl | hl
      · exact Bool.or_eq_true_iff.mpr (Or.inl (contains_true_iff_mem.mpr hl))
      · exact Bool.or_eq_true_iff.mpr (Or.inr (contains_true_iff_mem.mpr hl))

end DailyScan

/-- C3: duplicate suppression in the daily scan.  First conjunct: a page
whose computed identity is already in the ledger or in the ids seen this
run is skipped — nothing is appended for it.  Second conjunct: a second
run over the same pages, against the ledger extended with the first run's
rows, yields zero new rows (and `main` appends nothing when `new_rows` is
empty, so the ledger row count is unchanged). -/
theorem daily_scan_second_run_yields_nothing
    (parse : DailyScan.Page → DailyScan.Article) (now now2 : String)
    (existing : List String) (pages : List DailyScan.Page)
    (rows1 : List DailyScan.ScanRow)
    (h1 : DailyScan.daily_scan_new_rows parse now existing pages = some rows1) :
    (∀ (seen : List String) (acc : List DailyScan.ScanRow)
        (p : DailyScan.Page) (rest : List DailyScan.Page) (rid : String),
      UrlNorm.make_id p.company p.url = some rid →
      (existing.contains rid || seen.contains rid) = true →
      DailyScan.scanGo parse now existing seen acc (p :: rest) =
        DailyScan.scanGo parse now existing seen acc rest) ∧
    DailyScan.daily_scan_new_rows parse now2
      (existing ++ rows1.map (fun r => r.id)) pages = some [] := by
  constructor
  · intro seen acc p rest rid hm hcond
    rw [DailyScan.scanGo_cons, hm, Option.some_bind, if_pos hcond]
  · unfold DailyScan.daily_scan_new_rows
    apply DailyScan.scanGo_all_known
    intro p hp
    rcases DailyScan.scanGo_covers parse now existing pages [] [] rows1 h1 p hp
      with ⟨rid, hm, hloc⟩
    refine ⟨rid, hm, ?_⟩
    rcases hloc with hl | hl | hl
    · exact Or.inl (List.mem_append_left _ hl)
    · simp at hl
    · exact Or.inl (List.mem_append_right _ hl)

/-- Witness for C3: with one page whose id is in `seen`, the loop step is
a skip; the second-run conclusion is instantiated with an empty ledger and
the trivial first run. -/
theorem daily_scan_second_run_yields_nothing_witness :
    DailyScan.scanGo (fun _ => ⟨"A", "u", "T", "", "txt"⟩) "t1" []
      [SHA256.hexdigest "A||http://h/a"] []
      [⟨"A", "http://h/a", "html"⟩] =
      DailyScan.scanGo (fun _ => ⟨"A", "u", "T", "", "txt"⟩) "t1" []
        [SHA256.hexdigest "A||http://h/a"] [] [] :=
  (daily_scan_second_run_yields_nothing (fun _ => ⟨"A", "u", "T", "", "txt"⟩)
      "t1" "t2" [] [] [] rfl).1
    [SHA256.hexdigest "A||http://h/a"] [] ⟨"A", "http://h/a", "html"⟩ [] _
    rfl
    (Bool.or_eq_true_iff.mpr (Or.inr (contains_true_iff_mem.mpr
      (List.mem_singleton.mpr rfl))))

/-! ### C2 -/

namespace Webhook

theorem receivedCount_append (l₁ l₂ : List EmailMatcher.SenderRecord)
    (addr : String) :
    receivedCount (l₁ ++ l₂) addr =
      receivedCount l₁ addr + receivedCount l₂ addr := by
  induction l₁ with
  | nil => simp [receivedCount]
  | cons r t ih => simp [receivedCount, ih, Nat.add_assoc]

theorem receivedCount_updateFirst (q : EmailMatcher.SenderRecord → Bool)
    (f : EmailMatcher.SenderRecord → EmailMatcher.SenderRecord)
    (hf : ∀ r, (f r).from_address = r.from_address ∧
      (f r).emails_received = r.emails_received)
    (l : List EmailMatcher.SenderRecord) (addr : String) :
    receivedCount (EmailMatcher.updateFirst q f l) addr =
      receivedCount l addr := by
  induction l with
  | nil => rfl
  | cons r t ih =>
    unfold EmailMatcher.updateFirst
    split
    · simp [receivedCount, (hf r).1, (hf r).2]
    · simp [receivedCount, ih]

/-- Incrementing only the processed/injected counters leaves every
sender's received total unchanged. -/
theorem receivedCount_update_sender_stats_zero
    (senders : List EmailMatcher.SenderRecord)
    (from_address : String) (p i : Nat) (now addr : String) :
    receivedCount
        (EmailMatcher.update_sender_stats senders from_address 0 p i now)
        addr =
      receivedCount senders addr := by
  unfold EmailMatcher.update_sender_stats
  split
  · apply receivedCount_updateFirst
    intro r
    exact ⟨rfl, rfl⟩
  · rw [receivedCount_append]
    simp [receivedCount]

end Webhook

/-- C2 (amended): for an email whose stored-payload key already exists in
the Email Record ledger, the RECEIVED stage itself is a no-op (no Email
Record is appended and no sender's received counter moves) — but the
pipeline is *not* short-circuited: whatever the later stages do, the
email ledger's length and every received counter are unchanged, while
matched/injected updates and an Update Record append may still happen. -/
theorem webhook_existing_email_received_noop_only
    (names : List String) (mo qo : Except Unit String)
    (now fn fs fa ta ds subj mid pub body : String) (st : Webhook.PipeState)
    (hex : EmailMatcher.email_exists st.emails fn = true) :
    EmailMatcher.record_email_received st.emails st.senders fn fa ta ds subj
        now = (st.emails, st.senders) ∧
    ((Webhook.process_email_immediately names mo qo now fn fs fa ta ds subj
        mid pub body st).1.emails).length = st.emails.length ∧
    (∀ addr, Webhook.receivedCount
        (Webhook.process_email_immediately names mo qo now fn fs fa ta ds subj
          mid pub body st).1.senders addr =
      Webhook.receivedCount st.senders addr) := by
  have hrec : EmailMatcher.record_email_received st.emails st.senders fn fa ta
      ds subj now = (st.emails, st.senders) := by
    unfold EmailMatcher.record_email_received
    rw [if_pos hex]
  refine ⟨hrec, ?_, ?_⟩
  · unfold Webhook.process_email_immediately
    rw [hrec]
    dsimp only
    rcases hm : EmailMatcher.match_email_to_competitor st.senders names mo fa
        subj body with _ | company
    · rfl
    · unfold EmailMatcher.record_email_matched
      dsimp only
      rcases hq : EmailMatcher.check_email_quality qo fa subj body with _ | _
      · simp
      · simp only [Bool.not_true, Bool.false_eq_true, if_false]
        split
        · simp
        · simp [EmailMatcher.record_email_injected,
            EmailMatcher.update_email_injected]
  · intro addr
    unfold Webhook.process_email_immediately
    rw [hrec]
    dsimp only
    rcases hm : EmailMatcher.match_email_to_competitor st.senders names mo fa
        subj body with _ | company
    · rfl
    · unfold EmailMatcher.record_email_matched
      dsimp only
      rcases hq : EmailMatcher.check_email_quality qo fa subj body with _ | _
      · simp [Webhook.receivedCount_update_sender_stats_zero]
      · simp only [Bool.not_true, Bool.false_eq_true, if_false]
        split
        · simp [Webhook.receivedCount_update_sender_stats_zero]
        · simp [EmailMatcher.record_email_injected,
            Webhook.receivedCount_update_sender_stats_zero]

/-- Witness for C2 (amended): ledger with one recorded email, matching
oracle answers — the email ledger length and the sender's received count
are unchanged by a replay of the same `json_file`. -/
theorem webhook_existing_email_received_noop_only_witness :
    EmailMatcher.email_exists
      [⟨"e.json", "a@x.com", "to@y", "d", "Subj", "unmatched", "False", "t0",
        "", "inbox"⟩] "e.json" = true ∧
    ((Webhook.process_email_immediately ["Acme"] (Except.ok "Acme")
        (Except.ok "ACCEPT") "t1" "e.json" "e" "a@x.com" "to@y" "d" "Subj"
        "mid" "" "body"
        ⟨[⟨"e.json", "a@x.com", "to@y", "d", "Subj", "unmatched", "False",
           "t0", "", "inbox"⟩], [], []⟩).1.emails).length = 1 ∧
    Webhook.receivedCount
      (Webhook.process_email_immediately ["Acme"] (Except.ok "Acme")
        (Except.ok "ACCEPT") "t1" "e.json" "e" "a@x.com" "to@y" "d" "Subj"
        "mid" "" "body"
        ⟨[⟨"e.json", "a@x.com", "to@y", "d", "Subj", "unmatched", "False",
           "t0", "", "inbox"⟩], [], []⟩).1.senders "a@x.com" = 0 := by
  have h := webhook_existing_email_received_noop_only ["Acme"]
    (Except.ok "Acme") (Except.ok "ACCEPT") "t1" "e.json" "e" "a@x.com"
    "to@y" "d" "Subj" "mid" "" "body"
    ⟨[⟨"e.json", "a@x.com", "to@y", "d", "Subj", "unmatched", "False", "t0",
       "", "inbox"⟩], [], []⟩ (by decide)
  exact ⟨by decide, h.2.1, h.2.2 "a@x.com"⟩

/-- Counterexample for C2 as stated: with the email's `json_file` already
in the Email Record ledger, the pipeline is *not* a no-op — the matcher
still runs, the Email Record's `matched_company` is rewritten to `Acme`,
the sender's processed counter is incremented, and a row is appended to
the Update Record ledger. -/
theorem webhook_existing_email_pipeline_not_noop :
    EmailMatcher.email_exists
      [⟨"e.json", "a@x.com", "to@y", "d", "Subj", "unmatched", "False", "t0",
        "", "inbox"⟩] "e.json" = true ∧
    ((Webhook.process_email_immediately ["Acme"] (Except.ok "Acme")
        (Except.ok "ACCEPT") "t1" "e.json" "e" "a@x.com" "to@y" "d" "Subj"
        "mid" "" "body"
        ⟨[⟨"e.json", "a@x.com", "to@y", "d", "Subj", "unmatched", "False",
           "t0", "", "inbox"⟩], [], []⟩).1.updates).length = 1 ∧
    Webhook.processedCount
      (Webhook.process_email_immediately ["Acme"] (Except.ok "Acme")
        (Except.ok "ACCEPT") "t1" "e.json" "e" "a@x.com" "to@y" "d" "Subj"
        "mid" "" "body"
        ⟨[⟨"e.json", "a@x.com", "to@y", "d", "Subj", "unmatched", "False",
           "t0", "", "inbox"⟩], [], []⟩).1.senders "a@x.com" = 1 ∧
    ((Webhook.process_email_immediately ["Acme"] (Except.ok "Acme")
        (Except.ok "ACCEPT") "t1" "e.json" "e" "a@x.com" "to@y" "d" "Subj"
        "mid" "" "body"
        ⟨[⟨"e.json", "a@x.com", "to@y", "d", "Subj", "unmatched", "False",
           "t0", "", "inbox"⟩], [], []⟩).1.emails).map
      (fun r => r.matched_company) = ["Acme"] := by
  refine ⟨by decide, ?_, ?_, ?_⟩ <;> rfl

/-! ### C4 -/

/-- C4 (amended): on the webhook path an email the matcher rejects stays
RECEIVED — its Email Record is appended with `matched_company =
"unmatched"`, only the sender's received counter moves, and no Update
Record is created.  On the batch reprocessor path there is no Email
Record at all and an unmatched email is *not* dropped: it is relabeled
`"Newsletter (Unmatched)"` and still produces an update row whenever its
id is novel. -/
theorem unmatched_email_webhook_stays_received_batch_ingests
    (names : List String) (mo qo : Except Unit String)
    (now fn fs fa ta ds subj mid pub body : String) (st : Webhook.PipeState)
    (hnew : EmailMatcher.email_exists st.emails fn = false)
    (hmatch : EmailMatcher.match_email_to_competitor
      (EmailMatcher.update_sender_stats st.senders fa 1 0 0 now) names mo fa
      subj body = none) :
    Webhook.process_email_immediately names mo qo now fn fs fa ta ds subj mid
        pub body st =
      (⟨st.emails ++
          [⟨fn, fa, ta, ds, subj, "unmatched", "False", now, "", "inbox"⟩],
        EmailMatcher.update_sender_stats st.senders fa 1 0 0 now,
        st.updates⟩, none) ∧
    (∀ (c : ProcessEmails.EmailContent)
        (cfg : List ProcessEmails.Competitor) (existing : List String)
        (now2 fs2 : String),
      ProcessEmails.match_competitor c.from_addr c.subject cfg = none →
      ProcessEmails.process_email_file c cfg existing now2 fs2 =
        (if existing.contains
            (UrlNorm.email_make_id "Newsletter (Unmatched)" c.message_id) then
          none
         else
          some ⟨UrlNorm.email_make_id "Newsletter (Unmatched)" c.message_id,
                "Newsletter (Unmatched)", "email://" ++ fs2, c.subject,
                c.published_at, now2, c.body⟩)) := by
  constructor
  · have hrec : EmailMatcher.record_email_received st.emails st.senders fn fa
        ta ds subj now =
        (st.emails ++
          [⟨fn, fa, ta, ds, subj, "unmatched", "False", now, "", "inbox"⟩],
         EmailMatcher.update_sender_stats st.senders fa 1 0 0 now) := by
      unfold EmailMatcher.record_email_received
      rw [if_neg (by simp [hnew])]
      rfl
    unfold Webhook.process_email_immediately
    rw [hrec]
    dsimp only
    rw [hmatch]
  · intro c cfg existing now2 fs2 hm2
    unfold ProcessEmails.process_email_file
    rw [hm2]
    rfl

/-- Witness for C4 (amended): the oracle answers `NONE` for a fresh
email — the webhook leaves it RECEIVED/unmatched with no update row; the
batch reprocessor, for the same unmatched sender with no competitors
configured, still produces a `Newsletter (Unmatched)` update row. -/
theorem unmatched_email_webhook_stays_received_batch_ingests_witness :
    Webhook.process_email_immediately ["Acme"] (Except.ok "NONE")
        (Except.ok "ACCEPT") "t1" "e.json" "e" "a@x.com" "to@y" "d" "Subj"
        "mid" "" "body" ⟨[], [], []⟩ =
      (⟨[⟨"e.json", "a@x.com", "to@y", "d", "Subj", "unmatched", "False",
          "t1", "", "inbox"⟩],
        EmailMatcher.update_sender_stats [] "a@x.com" 1 0 0 "t1", []⟩,
       none) ∧
    ProcessEmails.process_email_file ⟨"hello", "x@y.com", "mid", "", "b"⟩ []
        [] "t" "stem" =
      (if ([] : List String).contains
          (UrlNorm.email_make_id "Newsletter (Unmatched)" "mid") then none
       else
        some ⟨UrlNorm.email_make_id "Newsletter (Unmatched)" "mid",
              "Newsletter (Unmatched)", "email://" ++ "stem", "hello", "",
              "t", "b"⟩) := by
  have h := unmatched_email_webhook_stays_received_batch_ingests ["Acme"]
    (Except.ok "NONE") (Except.ok "ACCEPT") "t1" "e.json" "e" "a@x.com"
    "to@y" "d" "Subj" "mid" "" "body" ⟨[], [], []⟩ (by decide) (by decide)
  exact ⟨h.1, h.2 ⟨"hello", "x@y.com", "mid", "", "b"⟩ [] [] "t" "stem"
    (by decide)⟩

/-- Counterexample for C4 as stated: on the batch reprocessor an email the
Competitor Matcher does not match still gets an Update Record, labeled
`Newsletter (Unmatched)` (and the reprocessor keeps no Email Record that
could stay in RECEIVED). -/
theorem batch_unmatched_email_still_ingested :
    ProcessEmails.match_competitor "x@y.com" "hello" [] = none ∧
    (ProcessEmails.process_email_file ⟨"hello", "x@y.com", "mid", "", "b"⟩ []
        [] "t" "stem").isSome = true ∧
    Option.map (fun r => r.company)
        (ProcessEmails.process_email_file ⟨"hello", "x@y.com", "mid", "", "b"⟩
          [] [] "t" "stem") = some "Newsletter (Unmatched)" :=
  ⟨rfl, rfl, rfl⟩

/-! ### C1/C7: character and list lemmas for the URL normalizer -/

namespace UrlNorm

theorem toNat_ofNat_valid {n : Nat} (h : n.isValidChar) :
    (Char.ofNat n).toNat = n := by
  unfold Char.ofNat
  rw [dif_pos h]
  rfl

theorem char_eq_iff_toNat {c d : Char} : c = d ↔ c.toNat = d.toNat := by
  constructor
  · intro h
    rw [h]
  · intro h
    have h1 := Char.ofNat_toNat c
    have h2 := Char.ofNat_toNat d
    rw [← h1, ← h2, h]

/-- `toNat` view of ASCII lower-casing. -/
theorem lowerChar_toNat (c : Char) :
    (PyStr.lowerChar c).toNat =
      if 65 ≤ c.toNat ∧ c.toNat ≤ 90 then c.toNat + 32 else c.toNat := by
  unfold PyStr.lowerChar
  split
  · next h => exact toNat_ofNat_valid (Or.inl (by omega))
  · rfl

theorem lowerChar_idem (c : Char) :
    PyStr.lowerChar (PyStr.lowerChar c) = PyStr.lowerChar c := by
  rw [char_eq_iff_toNat, lowerChar_toNat, lowerChar_toNat]
  split <;> first | rfl | (split <;> omega)

theorem lowerL_idem (l : List Char) :
    PyStr.lowerL (PyStr.lowerL l) = PyStr.lowerL l := by
  unfold PyStr.lowerL
  rw [List.map_map]
  exact List.map_congr_left (fun c _ => lowerChar_idem c)

theorem schemeChar_lowerChar {c : Char} (h : schemeChar c = true) :
    schemeChar (PyStr.lowerChar c) = true := by
  have ht := lowerChar_toNat c
  simp only [schemeChar, PyStr.isAsciiAlpha, PyStr.isLowerAlpha,
    PyStr.isUpperAlpha, PyStr.isAsciiDigit, Bool.or_eq_true, Bool.and_eq_true,
    decide_eq_true_eq, char_eq_iff_toNat] at h ⊢
  have e1 : ('+').toNat = 43 := rfl
  have e2 : ('-').toNat = 45 := rfl
  have e3 : ('.').toNat = 46 := rfl
  simp only [e1, e2, e3] at h ⊢
  rw [ht]
  split <;> omega

theorem isAsciiAlpha_lowerChar {c : Char} (h : PyStr.isAsciiAlpha c = true) :
    PyStr.isAsciiAlpha (PyStr.lowerChar c) = true := by
  have ht := lowerChar_toNat c
  simp only [PyStr.isAsciiAlpha, PyStr.isLowerAlpha, PyStr.isUpperAlpha,
    Bool.or_eq_true, Bool.and_eq_true, decide_eq_true_eq] at h ⊢
  rw [ht]
  split <;> omega

theorem netDelim_lowerChar_false {c : Char} (h : netDelim c = false) :
    netDelim (PyStr.lowerChar c) = false := by
  have ht := lowerChar_toNat c
  simp only [netDelim, Bool.or_eq_false_iff, decide_eq_false_iff_not,
    char_eq_iff_toNat] at h ⊢
  have e1 : ('/').toNat = 47 := rfl
  have e2 : ('?').toNat = 63 := rfl
  have e3 : ('#').toNat = 35 := rfl
  simp only [e1, e2, e3] at h ⊢
  rw [ht]
  split <;> omega

theorem unsafe_lowerChar_false {c : Char} (h : isUnsafeUrlChar c = false) :
    isUnsafeUrlChar (PyStr.lowerChar c) = false := by
  have ht := lowerChar_toNat c
  simp only [isUnsafeUrlChar, Bool.or_eq_false_iff, decide_eq_false_iff_not,
    char_eq_iff_toNat] at h ⊢
  have e1 : ('\t').toNat = 9 := rfl
  have e2 : ('\x0d').toNat = 13 := rfl
  have e3 : ('\n').toNat = 10 := rfl
  simp only [e1, e2, e3] at h ⊢
  rw [ht]
  split <;> omega

theorem lbracket_lowerChar (c : Char) :
    (PyStr.lowerChar c = '[') ↔ (c = '[') := by
  rw [char_eq_iff_toNat, char_eq_iff_toNat (c := c)]
  have ht := lowerChar_toNat c
  have e1 : ('[').toNat = 91 := rfl
  simp only [e1]
  rw [ht]
  split <;> omega

theorem rbracket_lowerChar (c : Char) :
    (PyStr.lowerChar c = ']') ↔ (c = ']') := by
  rw [char_eq_iff_toNat, char_eq_iff_toNat (c := c)]
  have ht := lowerChar_toNat c
  have e1 : (']').toNat = 93 := rfl
  simp only [e1]
  rw [ht]
  split <;> omega

theorem alpha_not_c0 {c : Char} (h : PyStr.isAsciiAlpha c = true) :
    isC0OrSpace c = false := by
  unfold PyStr.isAsciiAlpha PyStr.isLowerAlpha PyStr.isUpperAlpha at h
  unfold isC0OrSpace
  simp only [Bool.or_eq_true, Bool.and_eq_true, decide_eq_true_eq] at h
  simp only [decide_eq_false_iff_not]
  omega

theorem alpha_ne_bar {c : Char} (h : PyStr.isAsciiAlpha c = true) :
    c ≠ '|' := by
  intro heq
  subst heq
  exact absurd h (by decide)

theorem schemeChar_ne_colon {c : Char} (h : schemeChar c = true) :
    c ≠ ':' := by
  intro heq
  subst heq
  exact absurd h (by decide)

theorem schemeChar_not_unsafe {c : Char} (h : schemeChar c = true) :
    isUnsafeUrlChar c = false := by
  simp only [schemeChar, PyStr.isAsciiAlpha, PyStr.isLowerAlpha,
    PyStr.isUpperAlpha, PyStr.isAsciiDigit, Bool.or_eq_true, Bool.and_eq_true,
    decide_eq_true_eq, char_eq_iff_toNat] at h
  simp only [isUnsafeUrlChar, Bool.or_eq_false_iff, decide_eq_false_iff_not,
    char_eq_iff_toNat]
  have e1 : ('+').toNat = 43 := rfl
  have e2 : ('-').toNat = 45 := rfl
  have e3 : ('.').toNat = 46 := rfl
  have e4 : ('\t').toNat = 9 := rfl
  have e5 : ('\x0d').toNat = 13 := rfl
  have e6 : ('\n').toNat = 10 := rfl
  simp only [e1, e2, e3] at h
  simp only [e4, e5, e6]
  omega

theorem takeWhile_all {p : Char → Bool} :
    ∀ {l : List Char}, (∀ x ∈ l, p x = true) → l.takeWhile p = l
  | [], _ => rfl
  | a :: t, h => by
    rw [List.takeWhile_cons, if_pos (h a (List.mem_cons_self _ _))]
    rw [takeWhile_all (fun x hx => h x (List.mem_cons_of_mem _ hx))]

theorem takeWhile_boundary {p : Char → Bool} {y : Char}
    (hy : p y = false) :
    ∀ (xs ys : List Char), (∀ x ∈ xs, p x = true) →
      (xs ++ y :: ys).takeWhile p = xs ∧
      (xs ++ y :: ys).dropWhile p = y :: ys
  | [], ys, _ => by
    constructor
    · rw [List.nil_append, List.takeWhile_cons, if_neg (by simp [hy])]
    · rw [List.nil_append, List.dropWhile_cons, if_neg (by simp [hy])]
  | x :: xs, ys, h => by
    have hx : p x = true := h x (List.mem_cons_self _ _)
    have ih := takeWhile_boundary hy xs ys
      (fun a ha => h a (List.mem_cons_of_mem _ ha))
    constructor
    · rw [List.cons_append, List.takeWhile_cons, if_pos hx, ih.1]
    · rw [List.cons_append, List.dropWhile_cons, if_pos hx, ih.2]

theorem dropWhile_all {p : Char → Bool} :
    ∀ {l : List Char}, (∀ x ∈ l, p x = true) → l.dropWhile p = []
  | [], _ => rfl
  | a :: t, h => by
    rw [List.dropWhile_cons, if_pos (h a (List.mem_cons_self _ _))]
    exact dropWhile_all (fun x hx => h x (List.mem_cons_of_mem _ hx))

/-- A list whose members all avoid `'#'`/`'?'` etc. has `contains = false`. -/
theorem contains_eq_false_of_not_mem {l : List Char} {c : Char}
    (h : c ∉ l) : l.contains c = false := by
  rcases hb : l.contains c with _ | _
  · rfl
  · exact absurd (contains_true_iff_mem.mp hb) h

end UrlNorm

namespace UrlNorm

theorem parseScheme_of_boundary {sch rest : List Char}
    (hne : sch ≠ []) (hall : ∀ x ∈ sch, schemeChar x = true)
    (hhead : PyStr.isAsciiAlpha (sch.headD ' ') = true) :
    parseScheme (sch ++ ':' :: rest) = (PyStr.lowerL sch, rest) := by
  have tb := takeWhile_boundary (p := fun c => decide (c ≠ ':')) (y := ':')
    (by decide) sch rest
    (fun x hx => by simp [schemeChar_ne_colon (hall x hx)])
  unfold parseScheme
  rw [tb.1]
  rw [if_pos ?_]
  · have hl : sch.length + 1 = (sch ++ [':']).length := by simp
    rw [List.append_cons, hl, List.drop_left]
  · simp only [Bool.and_eq_true, decide_eq_true_eq]
    refine ⟨⟨⟨?_, by simp [hne]⟩, hhead⟩, List.all_eq_true.mpr hall⟩
    simp only [List.length_append, List.length_cons]
    omega

theorem splitnetloc_boundary {nl rest : List Char}
    (hall : ∀ x ∈ nl, netDelim x = false)
    (hrest : rest = [] ∨ ∃ a t, rest = a :: t ∧ netDelim a = true) :
    splitnetloc (nl ++ rest) = (nl, rest) := by
  unfold splitnetloc
  rcases hrest with rfl | ⟨a, t, rfl, ha⟩
  · rw [List.append_nil]
    rw [takeWhile_all (fun x hx => by simp [hall x hx])]
    rw [dropWhile_all (fun x hx => by simp [hall x hx])]
  · have tb := takeWhile_boundary (p := fun c => !netDelim c) (y := a)
      (by simp [ha]) nl t (fun x hx => by simp [hall x hx])
    rw [tb.1, tb.2]

end UrlNorm

namespace UrlNorm

theorem cleanse_clean {u : List Char} :
    ∀ x ∈ cleanse u, isUnsafeUrlChar x = false := by
  intro x hx
  unfold cleanse at hx
  have := (List.mem_filter.mp hx).2
  simpa using this

theorem restAfterScheme_sublist (u : List Char) :
    (restAfterScheme u).Sublist (cleanse u) := by
  unfold restAfterScheme parseScheme
  dsimp only
  split
  · exact List.drop_sublist _ _
  · exact List.Sublist.refl _

theorem schemeOf_spec (u : List Char) :
    schemeOf u = [] ∨
      (schemeOf u ≠ [] ∧ (schemeOf u).all schemeChar = true ∧
       PyStr.isAsciiAlpha ((schemeOf u).headD ' ') = true ∧
       PyStr.lowerL (schemeOf u) = schemeOf u ∧
       (∀ x ∈ schemeOf u, isUnsafeUrlChar x = false)) := by
  unfold schemeOf parseScheme
  dsimp only
  split
  · next hcond =>
    simp only [Bool.and_eq_true, decide_eq_true_eq, Bool.not_eq_true',
      List.isEmpty_eq_false] at hcond
    obtain ⟨⟨⟨hlen, hne⟩, hhead⟩, hall⟩ := hcond
    right
    set pre := (cleanse u).takeWhile (fun c => c ≠ ':') with hpre
    have hallm : ∀ x ∈ pre, schemeChar x = true := List.all_eq_true.mp hall
    refine ⟨fun hq => hne (by simpa [PyStr.lowerL] using hq), ?_, ?_,
      lowerL_idem pre, ?_⟩
    · rw [List.all_eq_true]
      intro x hx
      rcases List.mem_map.mp hx with ⟨y, hy, rfl⟩
      exact schemeChar_lowerChar (hallm y hy)
    · rcases pre with _ | ⟨a, t⟩
      · simp at hne
      · simpa using isAsciiAlpha_lowerChar (by simpa using hhead)
    · intro x hx
      rcases List.mem_map.mp hx with ⟨y, hy, rfl⟩
      have hyc : isUnsafeUrlChar y = false :=
        cleanse_clean y ((List.takeWhile_sublist _).subset hy)
      rw [unsafe_lowerChar_false hyc]
  · exact Or.inl rfl

theorem netlocOf_delim_free (u : List Char) :
    ∀ x ∈ netlocOf u, netDelim x = false := by
  intro x hx
  unfold netlocOf at hx
  split at hx
  · have := List.mem_takeWhile_imp hx
    simpa using this
  · simp at hx

theorem netlocOf_clean (u : List Char) :
    ∀ x ∈ netlocOf u, isUnsafeUrlChar x = false := by
  intro x hx
  unfold netlocOf at hx
  split at hx
  · exact cleanse_clean x ((restAfterScheme_sublist u).subset
      ((List.drop_sublist _ _).subset ((List.takeWhile_sublist _).subset hx)))
  · simp at hx

theorem restAfterNetloc_sublist (u : List Char) :
    (restAfterNetloc u).Sublist (cleanse u) := by
  unfold restAfterNetloc
  split
  · exact ((List.dropWhile_sublist _).trans (List.drop_sublist _ _)).trans
      (restAfterScheme_sublist u)
  · exact restAfterScheme_sublist u

theorem restAfterFragment_sublist (u : List Char) :
    (restAfterFragment u).Sublist (restAfterNetloc u) := by
  unfold restAfterFragment
  split
  · exact List.takeWhile_sublist _
  · exact List.Sublist.refl _

theorem pathOf_sublist (u : List Char) :
    (pathOf u).Sublist (restAfterFragment u) := by
  unfold pathOf
  split
  · exact List.takeWhile_sublist _
  · exact List.Sublist.refl _

theorem pathOf_clean (u : List Char) :
    ∀ x ∈ pathOf u, isUnsafeUrlChar x = false := by
  intro x hx
  exact cleanse_clean x ((restAfterNetloc_sublist u).subset
    ((restAfterFragment_sublist u).subset ((pathOf_sublist u).subset hx)))

theorem pathOf_no_hash (u : List Char) : '#' ∉ pathOf u := by
  intro hx
  have hx2 : '#' ∈ restAfterFragment u := (pathOf_sublist u).subset hx
  unfold restAfterFragment at hx2
  split at hx2
  · have := List.mem_takeWhile_imp hx2
    simp at this
  · next hnc =>
    have hni : '#' ∉ restAfterNetloc u := by simpa using hnc
    exact hni hx2

theorem pathOf_no_query (u : List Char) : '?' ∉ pathOf u := by
  intro hx
  unfold pathOf at hx
  split at hx
  · have := List.mem_takeWhile_imp hx
    simp at this
  · next hnc =>
    have hni : '?' ∉ restAfterFragment u := by simpa using hnc
    exact hni hx

theorem urlsplitM_parts {u : List Char} {parts : SplitResult}
    (h : urlsplitM u = some parts) :
    parts = ⟨schemeOf u, netlocOf u, pathOf u, queryOf u, fragmentOf u⟩ ∧
      bracketBad u = false := by
  unfold urlsplitM at h
  split at h
  · cases h
  · next hbr =>
    exact ⟨(Option.some.inj h).symm, by simpa using hbr⟩

theorem netlocOf_brackets {u : List Char} (hbr : bracketBad u = false) :
    ('[' ∈ netlocOf u) ↔ (']' ∈ netlocOf u) := by
  unfold bracketBad at hbr
  simp only [Bool.or_eq_false_iff, Bool.and_eq_false_iff] at hbr
  constructor
  · intro hm
    rcases hbr.1 with hc | hc
    · exact absurd hm (by simpa using hc)
    · exact contains_true_iff_mem.mp (by simpa using hc)
  · intro hm
    rcases hbr.2 with hc | hc
    · exact absurd hm (by simpa using hc)
    · exact contains_true_iff_mem.mp (by simpa using hc)

end UrlNorm

namespace UrlNorm

theorem slashify_mem {p : List Char} {x : Char} (hx : x ∈ slashify p) :
    x = '/' ∨ x ∈ p := by
  unfold slashify at hx
  split at hx
  · rcases List.mem_cons.mp hx with h | h
    · exact Or.inl h
    · exact Or.inr h
  · exact Or.inr hx

theorem slashify_cases (p : List Char) :
    (slashify p = [] ∧ p = []) ∨ ∃ t, slashify p = '/' :: t := by
  unfold slashify
  split
  · exact Or.inr ⟨p, rfl⟩
  · next hc =>
    rcases p with _ | ⟨a, t⟩
    · exact Or.inl ⟨rfl, rfl⟩
    · right
      refine ⟨t, ?_⟩
      simp only [List.isEmpty_cons, Bool.not_false, Bool.true_and,
        List.headD_cons, decide_eq_true_eq, Bool.and_eq_false_iff,
        decide_eq_false_iff_not] at hc
      rw [not_not.mp hc]

theorem brackets_ok_of_iff {l : List Char} (h : ('[' ∈ l) ↔ (']' ∈ l)) :
    ((l.contains '[' && !l.contains ']') ||
      (l.contains ']' && !l.contains '[')) = false := by
  rcases hb1 : l.contains '[' with _ | _ <;>
    rcases hb2 : l.contains ']' with _ | _ <;> simp
  · have h2 := h.mpr (contains_true_iff_mem.mp hb2)
    exact absurd h2 (by simpa using hb1)
  · have h1 := h.mp (contains_true_iff_mem.mp hb1)
    exact absurd h1 (by simpa using hb2)

theorem cleanse_fix {s url0 : List Char}
    (hs_ne : s ≠ []) (hs_head : PyStr.isAsciiAlpha (s.headD ' ') = true)
    (hs_clean : ∀ x ∈ s, isUnsafeUrlChar x = false)
    (hu_clean : ∀ x ∈ url0, isUnsafeUrlChar x = false) :
    cleanse (s ++ ':' :: url0) = s ++ ':' :: url0 := by
  rcases s with _ | ⟨a, t⟩
  · simp at hs_ne
  · unfold cleanse
    have hdw : (('a' :: t ++ ':' :: url0).dropWhile isC0OrSpace) = _ := rfl
    rw [List.cons_append, List.dropWhile_cons,
      if_neg (by simp [alpha_not_c0 (by simpa using hs_head)])]
    rw [List.filter_eq_self.mpr ?_]
    intro x hx
    rcases List.mem_cons.mp hx with rfl | hx2
    · simp [hs_clean x (List.mem_cons_self _ _)]
    · rcases List.mem_append.mp hx2 with hx3 | hx3
      · simp [hs_clean x (List.mem_cons_of_mem _ hx3)]
      · rcases List.mem_cons.mp hx3 with rfl | hx4
        · decide
        · simp [hu_clean x hx4]

theorem schemeOf_fix {s url0 : List Char}
    (hs_ne : s ≠ []) (hs_all : s.all schemeChar = true)
    (hs_head : PyStr.isAsciiAlpha (s.headD ' ') = true)
    (hs_low : PyStr.lowerL s = s)
    (hs_clean : ∀ x ∈ s, isUnsafeUrlChar x = false)
    (hu_clean : ∀ x ∈ url0, isUnsafeUrlChar x = false) :
    schemeOf (s ++ ':' :: url0) = s ∧
      restAfterScheme (s ++ ':' :: url0) = url0 := by
  have hcf := cleanse_fix hs_ne hs_head hs_clean hu_clean
  have hps : parseScheme (cleanse (s ++ ':' :: url0)) = (PyStr.lowerL s, url0) := by
    rw [hcf]
    exact parseScheme_of_boundary hs_ne (List.all_eq_true.mp hs_all) hs_head
  constructor
  · unfold schemeOf
    rw [hps, hs_low]
  · unfold restAfterScheme
    rw [hps]

end UrlNorm

namespace UrlNorm

/-- Re-splitting the URL `urlunsplit` builds from well-formed components
(query and fragment empty) recovers them, except that the path acquires a
leading slash whenever the netloc branch was taken.  The hypothesis `hB`
excludes the path-into-netloc collapse (`netloc` empty with a path
starting `//`), which re-splitting would not undo. -/
theorem urlsplit_roundtrip
    (s nl p : List Char)
    (hs_ne : s ≠ []) (hs_all : s.all schemeChar = true)
    (hs_head : PyStr.isAsciiAlpha (s.headD ' ') = true)
    (hs_low : PyStr.lowerL s = s)
    (hs_clean : ∀ x ∈ s, isUnsafeUrlChar x = false)
    (hnl_delim : ∀ x ∈ nl, netDelim x = false)
    (hnl_clean : ∀ x ∈ nl, isUnsafeUrlChar x = false)
    (hnl_br : ('[' ∈ nl) ↔ (']' ∈ nl))
    (hp_hash : '#' ∉ p) (hp_q : '?' ∉ p)
    (hp_clean : ∀ x ∈ p, isUnsafeUrlChar x = false)
    (hB : ¬(nl = [] ∧ p.take 2 = ['/', '/'])) :
    urlsplitM (urlunsplit ⟨s, nl, p, [], []⟩) =
      some ⟨s, nl,
            (if nl.isEmpty && !(usesNetloc.contains s) then p else slashify p),
            [], []⟩ := by
  have hsp_clean : ∀ x ∈ slashify p, isUnsafeUrlChar x = false := by
    intro x hx
    rcases slashify_mem hx with rfl | hx2
    · decide
    · exact hp_clean x hx2
  have hsp_hash : '#' ∉ slashify p := by
    intro hx
    rcases slashify_mem hx with h | h
    · cases h
    · exact hp_hash h
  have hsp_q : '?' ∉ slashify p := by
    intro hx
    rcases slashify_mem hx with h | h
    · cases h
    · exact hp_q h
  unfold urlunsplit
  dsimp only
  rw [if_neg (by simp), if_neg (by simp),
    if_pos (by simp [List.isEmpty_iff, hs_ne])]
  split
  · next hcond =>
    -- netloc branch: the rebuilt URL is s ++ ':' :: '/' :: '/' :: (nl ++ slashify p)
    have hu_clean : ∀ x ∈ '/' :: '/' :: (nl ++ slashify p),
        isUnsafeUrlChar x = false := by
      intro x hx
      rcases List.mem_cons.mp hx with rfl | hx2
      · decide
      · rcases List.mem_cons.mp hx2 with rfl | hx3
        · decide
        · rcases List.mem_append.mp hx3 with h | h
          · exact hnl_clean x h
          · exact hsp_clean x h
    obtain ⟨hsch, hrest⟩ := schemeOf_fix hs_ne hs_all hs_head hs_low hs_clean
      hu_clean
    have hsn : splitnetloc (nl ++ slashify p) = (nl, slashify p) := by
      apply splitnetloc_boundary hnl_delim
      rcases slashify_cases p with ⟨h1, _⟩ | ⟨t, ht⟩
      · exact Or.inl h1
      · exact Or.inr ⟨'/', t, ht, by decide⟩
    have hmarker : hasNetlocMarker (s ++ ':' :: '/' :: '/' :: (nl ++ slashify p)) = true := by
      unfold hasNetlocMarker
      rw [hrest]
      rfl
    have hnl2 : netlocOf (s ++ ':' :: '/' :: '/' :: (nl ++ slashify p)) = nl := by
      unfold netlocOf
      rw [if_pos hmarker, hrest]
      simp only [List.drop_succ_cons, List.drop_zero]
      rw [hsn]
    have hran : restAfterNetloc (s ++ ':' :: '/' :: '/' :: (nl ++ slashify p)) =
        slashify p := by
      unfold restAfterNetloc
      rw [if_pos hmarker, hrest]
      simp only [List.drop_succ_cons, List.drop_zero]
      rw [hsn]
    have hbb : bracketBad (s ++ ':' :: '/' :: '/' :: (nl ++ slashify p)) = false := by
      unfold bracketBad
      rw [hnl2]
      exact brackets_ok_of_iff hnl_br
    have hraf : restAfterFragment (s ++ ':' :: '/' :: '/' :: (nl ++ slashify p)) =
        slashify p := by
      unfold restAfterFragment
      rw [hran, if_neg (by simpa using hsp_hash)]
    have hfrag : fragmentOf (s ++ ':' :: '/' :: '/' :: (nl ++ slashify p)) = [] := by
      unfold fragmentOf
      rw [hran, if_neg (by simpa using hsp_hash)]
    have hpath : pathOf (s ++ ':' :: '/' :: '/' :: (nl ++ slashify p)) =
        slashify p := by
      unfold pathOf
      rw [hraf, if_neg (by simpa using hsp_q)]
    have hquery : queryOf (s ++ ':' :: '/' :: '/' :: (nl ++ slashify p)) = [] := by
      unfold queryOf
      rw [hraf, if_neg (by simpa using hsp_q)]
    unfold urlsplitM
    rw [if_neg (by simp [hbb]), hsch, hnl2, hpath, hquery, hfrag]
    -- the claimed path is `slashify p` in this branch
    congr 1
    rcases hni : nl.isEmpty with _ | _
    · simp
    · have hnl_nil : nl = [] := by simpa using hni
      rcases hcu : usesNetloc.contains s with _ | _
      · exfalso
        rw [hnl_nil] at hcond
        simp only [List.isEmpty_nil, Bool.not_true, Bool.false_or,
          Bool.and_eq_true, decide_eq_true_eq] at hcond
        rw [hcu] at hcond
        simp at hcond
      · simp
  · next hcond =>
    -- no-netloc branch: nl = [] and the scheme is not in uses_netloc
    have hnl_nil : nl = [] := by
      rcases hq : nl.isEmpty with _ | _
      · rw [hq] at hcond
        simp at hcond
      · simpa using hq
    have htake : ¬(p.take 2 = ['/', '/']) := fun hcontra => hB ⟨hnl_nil, hcontra⟩
    have huses : usesNetloc.contains s = false := by
      rcases hc : usesNetloc.contains s with _ | _
      · rfl
      · exfalso
        rw [hnl_nil] at hcond
        simp only [List.isEmpty_nil, Bool.not_true, Bool.false_or,
          Bool.and_eq_true, decide_eq_true_eq] at hcond
        exact hcond ⟨⟨by simpa using hs_ne, hc⟩, htake⟩
    obtain ⟨hsch, hrest⟩ := schemeOf_fix hs_ne hs_all hs_head hs_low hs_clean
      hp_clean
    have hmarker : hasNetlocMarker (s ++ ':' :: p) = false := by
      unfold hasNetlocMarker
      rw [hrest]
      simpa using htake
    have hnl2 : netlocOf (s ++ ':' :: p) = [] := by
      unfold netlocOf
      rw [if_neg (by simp [hmarker])]
    have hran : restAfterNetloc (s ++ ':' :: p) = p := by
      unfold restAfterNetloc
      rw [if_neg (by simp [hmarker]), hrest]
    have hbb : bracketBad (s ++ ':' :: p) = false := by
      unfold bracketBad
      rw [hnl2]
      rfl
    have hraf : restAfterFragment (s ++ ':' :: p) = p := by
      unfold restAfterFragment
      rw [hran, if_neg (by simpa using hp_hash)]
    have hfrag : fragmentOf (s ++ ':' :: p) = [] := by
      unfold fragmentOf
      rw [hran, if_neg (by simpa using hp_hash)]
    have hpath : pathOf (s ++ ':' :: p) = p := by
      unfold pathOf
      rw [hraf, if_neg (by simpa using hp_q)]
    have hquery : queryOf (s ++ ':' :: p) = [] := by
      unfold queryOf
      rw [hraf, if_neg (by simpa using hp_q)]
    unfold urlsplitM
    rw [if_neg (by simp [hbb]), hsch, hnl2, hpath, hquery, hfrag]
    rw [hnl_nil]
    have hmem : s ∉ usesNetloc := by simpa using huses
    simp [hmem]

end UrlNorm


namespace UrlNorm

theorem slashify_ne_nil {p : List Char} (hp : p ≠ []) : slashify p ≠ [] := by
  unfold slashify
  split
  · simp
  · exact hp

theorem slashify_idem (p : List Char) : slashify (slashify p) = slashify p := by
  rcases slashify_cases p with ⟨h1, _⟩ | ⟨t, ht⟩
  · rw [h1]
    rfl
  · rw [ht]
    unfold slashify
    rw [if_neg (by simp)]

theorem getLast?_slashify {p : List Char} (hp : p ≠ []) :
    (slashify p).getLast? = p.getLast? := by
  unfold slashify
  split
  · rcases p with _ | ⟨a, t⟩
    · simp at hp
    · rw [List.getLast?_cons_cons]
  · rfl

theorem slashify_eq_root_iff (p : List Char) :
    slashify p = ['/'] ↔ p = ['/'] := by
  unfold slashify
  split
  · next hc =>
    constructor
    · intro h
      have hp : p = [] := by simpa using h
      rw [hp] at hc
      simp at hc
    · intro h
      rw [h] at hc
      simp at hc
  · exact Iff.rfl

theorem slashify_take_two {p : List Char} (hp : p ≠ [])
    (h2 : p.take 2 ≠ ['/', '/']) : (slashify p).take 2 ≠ ['/', '/'] := by
  rcases p with _ | ⟨a, t⟩
  · exact absurd rfl hp
  · by_cases ha : a = '/'
    · subst ha
      have hsp : slashify ('/' :: t) = '/' :: t := by
        unfold slashify
        rw [if_neg (by simp)]
      rw [hsp]
      exact h2
    · have hsp : slashify (a :: t) = '/' :: a :: t := by
        unfold slashify
        rw [if_pos (by simp [ha])]
      rw [hsp]
      intro hq
      exact ha (by simpa using hq)

/-- `urlunsplit` on a query-free, fragment-free split with a nonempty
scheme: just `scheme:` glued onto the netloc/path assembly. -/
theorem urlunsplit_eval (s nl p : List Char) (hs : s ≠ []) :
    urlunsplit ⟨s, nl, p, [], []⟩ =
      s ++ ':' ::
        (if !nl.isEmpty ||
            (usesNetloc.contains s && decide (p.take 2 ≠ ['/', '/'])) then
          '/' :: '/' :: (nl ++ slashify p)
        else p) := by
  unfold urlunsplit
  dsimp only
  rw [if_neg (by simp), if_neg (by simp), if_pos (by simp [List.isEmpty_iff, hs])]
  have hse : s.isEmpty = false := by simp [List.isEmpty_iff, hs]
  rw [hse]
  simp only [Bool.not_false, Bool.true_and]

/-- Rebuilding with the round-trip's path (`slashify` applied in the
netloc/uses-netloc branches) gives the same URL as rebuilding with the
original path. -/
theorem unsplit_path_normalized (s nl p : List Char) (hs : s ≠ []) :
    urlunsplit ⟨s, nl,
      (if nl.isEmpty && !(usesNetloc.contains s) then p else slashify p),
      [], []⟩ =
    urlunsplit ⟨s, nl, p, [], []⟩ := by
  rcases hni : nl.isEmpty with _ | _
  · rw [if_neg (by simp [hni])]
    rw [urlunsplit_eval _ _ _ hs, urlunsplit_eval _ _ _ hs, hni]
    simp only [Bool.not_false, Bool.true_or, if_true]
    rw [slashify_idem]
  · rcases hcu : usesNetloc.contains s with _ | _
    · rw [if_pos (by simp [hni, hcu])]
    · rw [if_neg (by simp [hni, hcu])]
      rw [urlunsplit_eval _ _ _ hs, urlunsplit_eval _ _ _ hs, hni, hcu]
      simp only [Bool.not_true, Bool.false_or, Bool.true_and]
      by_cases hpe : p = []
      · subst hpe
        rfl
      · by_cases h2 : p.take 2 = ['/', '/']
        · have hhead : p.headD ' ' = '/' := by
            rcases p with _ | ⟨a, t⟩
            · exact absurd rfl hpe
            · rcases t with _ | ⟨b, r⟩
              · simp at h2
              · simp only [List.headD_cons]
                have := List.cons.inj h2
                exact this.1
          have hcond : (!p.isEmpty) = false ∨ p.headD ' ' = '/' := Or.inr hhead
          have hsp : slashify p = p := by
            unfold slashify
            rw [if_neg (by simp only [Bool.not_eq_true, Bool.and_eq_false_iff, Bool.not_eq_true', decide_eq_false_iff_not, not_not]; exact hcond)]
          rw [hsp, if_neg (by simp [h2]), if_neg (by simp [h2])]
        · have h2' := slashify_take_two hpe h2
          rw [if_pos (by simpa using h2'), if_pos (by simpa using h2)]
          rw [slashify_idem]

end UrlNorm

namespace UrlNorm

/-- The components `normalize_url` rebuilds its scheme from satisfy every
well-formedness fact `urlsplit_roundtrip` demands of a scheme. -/
theorem normScheme_facts {u : List Char} {parts : SplitResult}
    (h : urlsplitM u = some parts) :
    normScheme parts ≠ [] ∧ (normScheme parts).all schemeChar = true ∧
    PyStr.isAsciiAlpha ((normScheme parts).headD ' ') = true ∧
    PyStr.lowerL (normScheme parts) = normScheme parts ∧
    (∀ x ∈ normScheme parts, isUnsafeUrlChar x = false) := by
  have hp := (urlsplitM_parts h).1
  have hsch : parts.scheme = schemeOf u := by rw [hp]
  unfold normScheme
  rw [hsch]
  rcases schemeOf_spec u with hnil | ⟨hne, hall, hhead, hlow, hclean⟩
  · rw [hnil]
    exact ⟨by decide, by decide, by decide, by decide, by decide⟩
  · rw [if_neg (by simp [List.isEmpty_iff, hne]), hlow]
    exact ⟨hne, hall, hhead, hlow, hclean⟩

/-- The lower-cased netloc keeps the netloc invariants of `urlsplit`:
no delimiter, no unsafe character, balanced brackets. -/
theorem lower_netloc_facts {u : List Char} {parts : SplitResult}
    (h : urlsplitM u = some parts) :
    (∀ x ∈ PyStr.lowerL parts.netloc, netDelim x = false) ∧
    (∀ x ∈ PyStr.lowerL parts.netloc, isUnsafeUrlChar x = false) ∧
    (('[' ∈ PyStr.lowerL parts.netloc) ↔ (']' ∈ PyStr.lowerL parts.netloc)) := by
  have hp := (urlsplitM_parts h).1
  have hbr := (urlsplitM_parts h).2
  have hnl : parts.netloc = netlocOf u := by rw [hp]
  rw [hnl]
  refine ⟨?_, ?_, ?_⟩
  · intro x hx
    simp only [PyStr.lowerL, List.mem_map] at hx
    obtain ⟨y, hy, rfl⟩ := hx
    exact netDelim_lowerChar_false (netlocOf_delim_free u y hy)
  · intro x hx
    simp only [PyStr.lowerL, List.mem_map] at hx
    obtain ⟨y, hy, rfl⟩ := hx
    exact unsafe_lowerChar_false (netlocOf_clean u y hy)
  · have hlb : ('[' ∈ PyStr.lowerL (netlocOf u)) ↔ ('[' ∈ netlocOf u) := by
      simp only [PyStr.lowerL, List.mem_map]
      constructor
      · rintro ⟨y, hy, hxy⟩
        have hy' := (lbracket_lowerChar y).mp hxy
        subst hy'
        exact hy
      · intro hm
        exact ⟨'[', hm, by decide⟩
    have hrb : (']' ∈ PyStr.lowerL (netlocOf u)) ↔ (']' ∈ netlocOf u) := by
      simp only [PyStr.lowerL, List.mem_map]
      constructor
      · rintro ⟨y, hy, hxy⟩
        have hy' := (rbracket_lowerChar y).mp hxy
        subst hy'
        exact hy
      · intro hm
        exact ⟨']', hm, by decide⟩
    rw [hlb, hrb]
    exact netlocOf_brackets hbr

/-- The trailing-slash strip of `normalize_url` never empties a nonempty
path and introduces no character beyond the original path and `/`. -/
theorem stripLast_facts (q : List Char) (hq : q ≠ []) :
    (if q.getLast? = some '/' && q ≠ ['/'] then q.dropLast else q) ≠ [] ∧
    (∀ x ∈ (if q.getLast? = some '/' && q ≠ ['/'] then q.dropLast else q),
      x ∈ q) := by
  constructor
  · split
    · next hc =>
      simp only [Bool.and_eq_true, decide_eq_true_eq] at hc
      obtain ⟨hlast, hroot⟩ := hc
      intro hnil
      have hlen0 : q.dropLast.length = 0 := by rw [hnil]; rfl
      rw [List.length_dropLast] at hlen0
      have hpos : 0 < q.length := List.length_pos.mpr hq
      have hone : q.length = 1 := by omega
      obtain ⟨a, ha⟩ := List.length_eq_one.mp hone
      rw [ha] at hlast
      simp only [List.getLast?_singleton, Option.some.injEq] at hlast
      rw [ha, hlast] at hroot
      exact hroot rfl
    · exact hq
  · intro x hx
    split at hx
    · exact (List.dropLast_sublist q).subset hx
    · exact hx

/-- The rebuilt path is nonempty, free of `#`, `?` and unsafe
characters. -/
theorem normPath_facts {u : List Char} {parts : SplitResult}
    (h : urlsplitM u = some parts) :
    normPath parts ≠ [] ∧ '#' ∉ normPath parts ∧ '?' ∉ normPath parts ∧
    (∀ x ∈ normPath parts, isUnsafeUrlChar x = false) := by
  have hp := (urlsplitM_parts h).1
  have hpa : parts.path = pathOf u := by rw [hp]
  have h0 : (if parts.path.isEmpty then (['/'] : List Char) else parts.path) ≠ [] := by
    split
    · simp
    · next hni =>
      intro hc
      rw [hc] at hni
      simp at hni
  have hfacts := stripLast_facts _ h0
  have hmem : ∀ x ∈ normPath parts, x = '/' ∨ x ∈ parts.path := by
    intro x hx
    have hx0 := hfacts.2 x hx
    by_cases hie : parts.path.isEmpty
    · rw [if_pos hie] at hx0
      exact Or.inl (by simpa using hx0)
    · rw [if_neg hie] at hx0
      exact Or.inr hx0
  refine ⟨hfacts.1, ?_, ?_, ?_⟩
  · intro hx
    rcases hmem _ hx with hsl | hm
    · exact absurd hsl (by decide)
    · exact pathOf_no_hash u (hpa ▸ hm)
  · intro hx
    rcases hmem _ hx with hsl | hm
    · exact absurd hsl (by decide)
    · exact pathOf_no_query u (hpa ▸ hm)
  · intro x hx
    rcases hmem _ hx with hsl | hm
    · rw [hsl]
      decide
    · exact pathOf_clean u x (hpa ▸ hm)

end UrlNorm

namespace UrlNorm

theorem normalize_urlL_eq_some {u : List Char} {parts : SplitResult}
    (h : urlsplitM u = some parts) :
    normalize_urlL u = some (normCombine parts) := by
  unfold normalize_urlL
  rw [h]

theorem normPath_fixed {p : List Char} (hp : p ≠ [])
    (hstab : ¬(p.getLast? = some '/' ∧ p ≠ ['/'])) (s nl q f : List Char) :
    normPath ⟨s, nl, p, q, f⟩ = p := by
  unfold normPath
  dsimp only
  have h0 : (if p.isEmpty then (['/'] : List Char) else p) = p :=
    if_neg (by simp [List.isEmpty_iff, hp])
  rw [h0, if_neg (by simp only [Bool.and_eq_true, decide_eq_true_eq]; exact hstab)]

theorem stable_path_transfer {p p2 : List Char} (hp : p ≠ [])
    (h2 : p2 = p ∨ p2 = slashify p)
    (hstab : ¬(p.getLast? = some '/' ∧ p ≠ ['/'])) :
    ¬(p2.getLast? = some '/' ∧ p2 ≠ ['/']) := by
  rcases h2 with rfl | rfl
  · exact hstab
  · rintro ⟨hl, hr⟩
    rw [getLast?_slashify hp] at hl
    have hproot : p = ['/'] := by
      by_contra hnr
      exact hstab ⟨hl, hnr⟩
    rw [hproot] at hr
    exact hr (by decide)

theorem normScheme_fixed {s : List Char} (hs : s ≠ [])
    (hlow : PyStr.lowerL s = s) (nl p q f : List Char) :
    normScheme ⟨s, nl, p, q, f⟩ = s := by
  unfold normScheme
  dsimp only
  rw [if_neg (by simp [List.isEmpty_iff, hs])]
  exact hlow

/-- One full `normalize_url` pass is idempotent on stable inputs: if
splitting succeeds and `normalizeStable` holds of the input, the produced
string normalizes to itself. -/
theorem normalize_urlL_stable_fixed {u n : List Char}
    (h : normalize_urlL u = some n) (hst : normalizeStable u = true) :
    normalize_urlL n = some n := by
  unfold normalize_urlL at h
  rcases hsp : urlsplitM u with _ | parts
  · rw [hsp] at h
    cases h
  · rw [hsp] at h
    have hn : n = normCombine parts := (Option.some.inj h).symm
    obtain ⟨hs_ne, hs_all, hs_head, hs_low, hs_clean⟩ := normScheme_facts hsp
    obtain ⟨hnl_delim, hnl_clean, hnl_br⟩ := lower_netloc_facts hsp
    obtain ⟨hp_ne, hp_hash, hp_q, hp_clean⟩ := normPath_facts hsp
    unfold normalizeStable at hst
    rw [hsp] at hst
    simp only [Bool.and_eq_true, Bool.not_eq_true', Bool.and_eq_false_iff,
      decide_eq_false_iff_not, decide_eq_true_eq, not_not,
      List.isEmpty_iff, Bool.not_eq_true] at hst
    obtain ⟨hst1, hst2⟩ := hst
    have hstab1 : ¬((normPath parts).getLast? = some '/' ∧
        normPath parts ≠ ['/']) := by
      rintro ⟨ha, hb⟩
      rcases hst1 with hc | hc
      · exact (by simpa [hc] using ha)
      · exact hb (by simpa using hc)
    have hB : ¬(PyStr.lowerL parts.netloc = [] ∧
        (normPath parts).take 2 = ['/', '/']) := by
      rintro ⟨ha, hb⟩
      rcases hst2 with hc | hc
      · rw [ha] at hc
        simp at hc
      · exact (by simpa [hb] using hc)
    have hrt := urlsplit_roundtrip (normScheme parts)
      (PyStr.lowerL parts.netloc) (normPath parts)
      hs_ne hs_all hs_head hs_low hs_clean hnl_delim hnl_clean hnl_br
      hp_hash hp_q hp_clean hB
    have hnu : n = urlunsplit ⟨normScheme parts, PyStr.lowerL parts.netloc,
        normPath parts, [], []⟩ := hn
    have hsplit2 : urlsplitM n = some ⟨normScheme parts,
        PyStr.lowerL parts.netloc,
        (if (PyStr.lowerL parts.netloc).isEmpty &&
            !(usesNetloc.contains (normScheme parts)) then normPath parts
         else slashify (normPath parts)), [], []⟩ := by
      rw [hnu]
      exact hrt
    have hp2alt : (if (PyStr.lowerL parts.netloc).isEmpty &&
          !(usesNetloc.contains (normScheme parts)) then normPath parts
        else slashify (normPath parts)) = normPath parts ∨
        (if (PyStr.lowerL parts.netloc).isEmpty &&
          !(usesNetloc.contains (normScheme parts)) then normPath parts
        else slashify (normPath parts)) = slashify (normPath parts) := by
      split
      · exact Or.inl rfl
      · exact Or.inr rfl
    have hstab2 := stable_path_transfer hp_ne hp2alt hstab1
    have hp2_ne : (if (PyStr.lowerL parts.netloc).isEmpty &&
          !(usesNetloc.contains (normScheme parts)) then normPath parts
        else slashify (normPath parts)) ≠ [] := by
      rcases hp2alt with he | he
      · rw [he]
        exact hp_ne
      · rw [he]
        exact slashify_ne_nil hp_ne
    have hcomb : normCombine ⟨normScheme parts, PyStr.lowerL parts.netloc,
        (if (PyStr.lowerL parts.netloc).isEmpty &&
            !(usesNetloc.contains (normScheme parts)) then normPath parts
         else slashify (normPath parts)), [], []⟩ = n := by
      unfold normCombine
      rw [normScheme_fixed hs_ne hs_low, lowerL_idem,
        normPath_fixed hp2_ne hstab2]
      rw [unsplit_path_normalized _ _ _ hs_ne]
      exact hnu.symm
    rw [normalize_urlL_eq_some hsplit2, hcomb]

end UrlNorm

/-- **C7** (corrected).  As stated the claim is false: `normalize_url`
strips only one trailing slash per pass and keeps the path's letter case,
so it is not idempotent in general and the spec's example pair does not
collapse.  Amended property, proved here: on every input that one pass
already stabilises (`normalizeStable`: the rebuilt path carries no further
strippable trailing slash and the empty-netloc `//`-path collapse of
`urlunsplit` cannot fire), normalizing the produced string returns it
unchanged. -/
theorem normalize_url_stable_idempotent (u n : String)
    (h : UrlNorm.normalize_url u = some n)
    (hst : UrlNorm.normalizeStable u.data = true) :
    UrlNorm.normalize_url n = some n := by
  unfold UrlNorm.normalize_url at h ⊢
  rcases hM : UrlNorm.normalize_urlL u.data with _ | l
  · rw [hM] at h
    cases h
  · rw [hM] at h
    simp only [Option.map_some'] at h
    have hn : n = ⟨l⟩ := (Option.some.inj h).symm
    have hfix := UrlNorm.normalize_urlL_stable_fixed hM hst
    rw [hn]
    rw [show (String.mk l).data = l from rfl, hfix]
    rfl

/-- Witness: the already-normalized URL `http://example.com/blog` is
stable and normalizes to itself. -/
theorem normalize_url_stable_idempotent_witness :
    UrlNorm.normalize_url "http://example.com/blog" =
      some "http://example.com/blog" :=
  normalize_url_stable_idempotent "http://example.com/blog"
    "http://example.com/blog" (by decide) (by decide)

/-- Counterexample to C7 as stated: a second `normalize_url` pass strips
a further trailing slash (`http://h/a//` → `http://h/a/` → `http://h/a`),
and the two example URLs normalize to different strings because the
path's case is preserved. -/
theorem normalize_url_not_idempotent :
    (UrlNorm.normalize_url "http://h/a//").bind UrlNorm.normalize_url ≠
      UrlNorm.normalize_url "http://h/a//" ∧
    UrlNorm.normalize_url "HTTP://Example.com/Blog/" ≠
      UrlNorm.normalize_url "http://example.com/blog" :=
  ⟨by decide, by decide⟩

namespace UrlNorm

theorem hasSep_tail {a : Char} {t : List Char}
    (h : hasSep (a :: t) = false) : hasSep t = false := by
  rcases t with _ | ⟨b, r⟩
  · rfl
  · simp only [hasSep, Bool.or_eq_false_iff] at h
    exact h.2

theorem hasSep_cons_cons (t : List Char) :
    hasSep ('|' :: '|' :: t) = true := by
  simp [hasSep]

/-- `c₁ ++ "||" ++ n₁ = c₂ ++ "||" ++ n₂` forces `c₁ = c₂` and `n₁ = n₂`
when neither company contains the separator and neither key starts with
`|`. -/
theorem sep_inj (c₁ : List Char) : ∀ (c₂ n₁ n₂ : List Char),
    hasSep c₁ = false → hasSep c₂ = false →
    n₁.headD ' ' ≠ '|' → n₂.headD ' ' ≠ '|' →
    c₁ ++ '|' :: '|' :: n₁ = c₂ ++ '|' :: '|' :: n₂ →
    c₁ = c₂ ∧ n₁ = n₂ := by
  induction c₁ with
  | nil =>
    intro c₂ n₁ n₂ hs1 hs2 hn1 hn2 heq
    rcases c₂ with _ | ⟨b, c₂t⟩
    · simp only [List.nil_append] at heq
      exact ⟨rfl, by simpa using heq⟩
    · simp only [List.nil_append, List.cons_append] at heq
      obtain ⟨hb, heq2⟩ := List.cons.inj heq
      rcases c₂t with _ | ⟨d, c₂tt⟩
      · simp only [List.nil_append] at heq2
        obtain ⟨_, hn⟩ := List.cons.inj heq2
        rw [hn] at hn1
        simp at hn1
      · simp only [List.cons_append] at heq2
        obtain ⟨hd, _⟩ := List.cons.inj heq2
        rw [← hb, ← hd] at hs2
        rw [hasSep_cons_cons] at hs2
        cases hs2
  | cons a c₁t ih =>
    intro c₂ n₁ n₂ hs1 hs2 hn1 hn2 heq
    rcases c₂ with _ | ⟨b, c₂t⟩
    · simp only [List.nil_append, List.cons_append] at heq
      obtain ⟨ha, heq2⟩ := List.cons.inj heq
      rcases c₁t with _ | ⟨d, c₁tt⟩
      · simp only [List.nil_append] at heq2
        obtain ⟨_, hn⟩ := List.cons.inj heq2
        rw [← hn] at hn2
        simp at hn2
      · simp only [List.cons_append] at heq2
        obtain ⟨hd, _⟩ := List.cons.inj heq2
        rw [ha, hd] at hs1
        rw [hasSep_cons_cons] at hs1
        cases hs1
    · simp only [List.cons_append] at heq
      obtain ⟨hab, heq2⟩ := List.cons.inj heq
      obtain ⟨hc, hn⟩ := ih c₂t n₁ n₂ (hasSep_tail hs1) (hasSep_tail hs2)
        hn1 hn2 heq2
      exact ⟨by rw [hab, hc], hn⟩

/-- Every string `normalize_url` produces starts with an ASCII letter
(the first character of its scheme). -/
theorem normalize_head_alpha {u n : List Char}
    (h : normalize_urlL u = some n) :
    PyStr.isAsciiAlpha (n.headD ' ') = true := by
  rcases hsp : urlsplitM u with _ | parts
  · unfold normalize_urlL at h
    rw [hsp] at h
    cases h
  · rw [normalize_urlL_eq_some hsp] at h
    have hn : n = normCombine parts := (Option.some.inj h).symm
    obtain ⟨hs_ne, _, hs_head, _, _⟩ := normScheme_facts hsp
    rw [hn]
    unfold normCombine
    rw [urlunsplit_eval _ _ _ hs_ne]
    rcases hsc : normScheme parts with _ | ⟨a, t⟩
    · exact absurd hsc hs_ne
    · rw [hsc] at hs_head
      simpa using hs_head

theorem normalize_head_not_bar {u n : List Char}
    (h : normalize_urlL u = some n) : n.headD ' ' ≠ '|' := by
  intro hc
  have ha := normalize_head_alpha h
  rw [hc] at ha
  exact absurd ha (by decide)

end UrlNorm

/-- **C1** (corrected).  `make_id` is a pure function of `(company, url)`
— no salt or timestamp — returning the 64-character SHA-256 hex digest of
`company ++ "||" ++ normalized-url`.  As stated the distinctness half of
the claim is false: `||` can occur inside companies or normalized URLs and
make two different pairs share one pre-image (see the counterexample).
Amended, proved here: the digest equation and length always hold, and the
hash *pre-images* of two pairs coincide only when company and normalized
URL both coincide, provided neither company contains `||` (normalized URLs
always start with a letter, so no hypothesis is needed on them). -/
theorem make_id_structure_preimage_injective
    (c₁ u₁ n₁ c₂ u₂ n₂ : String)
    (h₁ : UrlNorm.normalize_url u₁ = some n₁)
    (h₂ : UrlNorm.normalize_url u₂ = some n₂)
    (hs₁ : UrlNorm.hasSep c₁.data = false)
    (hs₂ : UrlNorm.hasSep c₂.data = false) :
    UrlNorm.make_id c₁ u₁ =
      some (SHA256.hexdigest (UrlNorm.idPreimage c₁ n₁)) ∧
    (SHA256.hexdigest (UrlNorm.idPreimage c₁ n₁)).length = 64 ∧
    (UrlNorm.idPreimage c₁ n₁ = UrlNorm.idPreimage c₂ n₂ →
      c₁ = c₂ ∧ n₁ = n₂) := by
  have hM₁ : UrlNorm.normalize_urlL u₁.data = some n₁.data := by
    unfold UrlNorm.normalize_url at h₁
    rcases hM : UrlNorm.normalize_urlL u₁.data with _ | l
    · rw [hM] at h₁
      cases h₁
    · rw [hM] at h₁
      simp only [Option.map_some'] at h₁
      rw [← Option.some.inj h₁]
  have hM₂ : UrlNorm.normalize_urlL u₂.data = some n₂.data := by
    unfold UrlNorm.normalize_url at h₂
    rcases hM : UrlNorm.normalize_urlL u₂.data with _ | l
    · rw [hM] at h₂
      cases h₂
    · rw [hM] at h₂
      simp only [Option.map_some'] at h₂
      rw [← Option.some.inj h₂]
  refine ⟨?_, SHA256.hexdigest_length _, ?_⟩
  · unfold UrlNorm.make_id
    rw [h₁]
    rfl
  · intro heq
    have hd0 := congrArg String.data heq
    have hd : c₁.data ++ '|' :: '|' :: n₁.data =
        c₂.data ++ '|' :: '|' :: n₂.data := by
      simpa [UrlNorm.idPreimage, List.append_assoc] using hd0
    obtain ⟨hc, hn⟩ := UrlNorm.sep_inj c₁.data c₂.data n₁.data n₂.data
      hs₁ hs₂ (UrlNorm.normalize_head_not_bar hM₁)
      (UrlNorm.normalize_head_not_bar hM₂) hd
    refine ⟨?_, ?_⟩
    · cases c₁
      cases c₂
      exact congrArg String.mk (by simpa using hc)
    · cases n₁
      cases n₂
      exact congrArg String.mk (by simpa using hn)

/-- Witness: two concrete companies and URLs; the id is the digest of the
pre-image, the digest has 64 characters, and equal pre-images would force
equal companies and equal normalized URLs. -/
theorem make_id_structure_preimage_injective_witness :
    UrlNorm.make_id "acme" "https://a.com" =
      some (SHA256.hexdigest (UrlNorm.idPreimage "acme" "https://a.com/")) ∧
    (SHA256.hexdigest (UrlNorm.idPreimage "acme" "https://a.com/")).length = 64 ∧
    (UrlNorm.idPreimage "acme" "https://a.com/" =
        UrlNorm.idPreimage "b" "https://b.com/" →
      ("acme" : String) = "b" ∧
      ("https://a.com/" : String) = "https://b.com/") :=
  make_id_structure_preimage_injective "acme" "https://a.com"
    "https://a.com/" "b" "https://b.com" "https://b.com/"
    (by decide) (by decide) (by decide) (by decide)

/-- Counterexample to C1 as stated: the separator `||` also occurs inside
URLs, so two pairs that differ in company (and in URL) can feed the same
pre-image to the hash and receive the same id. -/
theorem make_id_separator_collision :
    UrlNorm.make_id "a" "https://h/x||https://h/y" =
      UrlNorm.make_id "a||https://h/x" "https://h/y" ∧
    ("a" : String) ≠ "a||https://h/x" := by
  constructor
  · have e1 : UrlNorm.normalize_url "https://h/x||https://h/y" =
        some "https://h/x||https://h/y" := by decide
    have e2 : UrlNorm.normalize_url "https://h/y" =
        some "https://h/y" := by decide
    unfold UrlNorm.make_id
    rw [e1, e2]
    simp only [Option.map_some']
    congr 1
  · decide
